import Mathlib

/-!
Shallow embedding of the decision-tree core of the wildwood repository
(`src/wildwood/_tree.py` and `src/wildwood/_criterion.py`) together with
theorems settling the frozen claims about it.

Modelling conventions.
* Machine floats (`float32`, `float64`) are modelled by `ℚ`.  The one place
  where an IEEE NaN is semantically relevant (`log_weight_tree`, which
  `add_node_tree` fills with `np.nan`) is modelled by `Option ℚ`, with `none`
  standing for NaN; the arithmetic that consumes it propagates `none` exactly
  as IEEE arithmetic propagates NaN through `-`, `*`, `+` and `exp`.
* The transcendental `math.exp` is passed in as an explicit function
  parameter `e : ℚ → ℚ`; every theorem below holds for an arbitrary `e`, so
  in particular for the real exponential used by the code.
* Machine integers are `ℕ` / `Int` with explicit reductions mod `2 ^ w`
  where overflow matters.
* numpy arrays are Lean lists (indexed with `getD`); the per-class / per-output
  statistic matrices of the criterion are total functions `ℕ → ℕ → ℚ`.
-/

namespace Wildwood

/-- Sentinel child index meaning that the node is a leaf
(`TREE_LEAF = intp(-1)` in `_tree.py`). -/
def TREE_LEAF : Int := -1

/-- Sentinel meaning undefined (`TREE_UNDEFINED = intp(-2)` in `_tree.py`),
used for the root's parent and for the split fields of leaves. -/
def TREE_UNDEFINED : Int := -2

/-- Modelled from the spec: the node record dtype lives in `_node.py`, which is
not part of the shown core; spec section 6 fixes the field layout, in
particular `parent`, `left_child`, `right_child`, `feature` are signed 64-bit,
`bin_threshold` is unsigned 8-bit, `depth` and the index ranges are unsigned
64-bit, and `threshold`, `loss_valid`, `log_weight_tree` are 32-bit floats.
Floats are modelled by `ℚ`, except `log_weight_tree` which is `Option ℚ`
(`none` models the IEEE NaN written by `add_node_tree`). -/
structure NodeRec where
  node_id : ℕ
  parent : Int
  left_child : Int
  right_child : Int
  is_leaf : Bool
  depth : ℕ
  feature : Int
  threshold : ℚ
  bin_threshold : ℕ
  impurity : ℚ
  n_samples_train : ℕ
  n_samples_valid : ℕ
  w_samples_train : ℚ
  w_samples_valid : ℚ
  start_train : ℕ
  end_train : ℕ
  start_valid : ℕ
  end_valid : ℕ
  is_left : Bool
  loss_valid : ℚ
  log_weight_tree : Option ℚ
  deriving DecidableEq

instance : Inhabited NodeRec :=
  ⟨{ node_id := 0, parent := 0, left_child := 0, right_child := 0,
     is_leaf := false, depth := 0, feature := 0, threshold := 0,
     bin_threshold := 0, impurity := 0, n_samples_train := 0,
     n_samples_valid := 0, w_samples_train := 0, w_samples_valid := 0,
     start_train := 0, end_train := 0, start_valid := 0, end_valid := 0,
     is_left := false, loss_valid := 0, log_weight_tree := none }⟩

/-- Storing a signed value into an unsigned 8-bit record field reduces it
mod `2 ^ 8` (two's-complement wrap of numba's cast to `uint8`). -/
def toUint8 (x : Int) : ℕ := (x % 256).toNat

/-- The `_TreeClassifier` jitclass state: node arena plus per-node
class-probability predictions (`y_pred` rows have `n_classes` entries). -/
structure TreeClassifier where
  n_features : ℕ
  n_classes : ℕ
  node_count : ℕ
  capacity : ℕ
  nodes : List NodeRec
  y_pred : List (List ℚ)

/-- The `_TreeRegressor` jitclass state: node arena plus scalar per-node
predictions. -/
structure TreeRegressor where
  n_features : ℕ
  node_count : ℕ
  capacity : ℕ
  nodes : List NodeRec
  y_pred : List ℚ

/-- A freshly constructed `_TreeClassifier.__init__`: zero capacity and node
count, empty node and prediction arrays. -/
def freshTreeClassifier (n_features n_classes : ℕ) : TreeClassifier :=
  { n_features := n_features, n_classes := n_classes, node_count := 0,
    capacity := 0, nodes := [], y_pred := [] }

/-- Modelled from the spec: `resize` lives in `_utils.py`, which is not part
of the shown core; spec section 4.1 (`grow`) says reallocation preserves the
existing entries and extends storage to the new capacity (predictions
zero-filled, node slots uninitialized, modelled by the default record). -/
def resizeList {α : Type} (l : List α) (n : ℕ) (fill : α) : List α :=
  l.take n ++ List.replicate (n - l.length) fill

/-- Embedding of `resize_tree_` for the classifier: resizes the node and
prediction arrays no matter what and records the new capacity. -/
def resize_tree_clf_force (t : TreeClassifier) (capacity : ℕ) : TreeClassifier :=
  { t with nodes := resizeList t.nodes capacity default,
           y_pred := resizeList t.y_pred capacity (List.replicate t.n_classes 0),
           capacity := capacity }

/-- Embedding of `resize_tree` for the classifier: `none` doubles the current
capacity (3 if the tree is empty); an explicit capacity resizes only when it
exceeds the current one or the node array is empty. -/
def resize_tree_clf (t : TreeClassifier) (capacity : Option ℕ) : TreeClassifier :=
  match capacity with
  | none =>
    if t.capacity = 0 then resize_tree_clf_force t 3
    else resize_tree_clf_force t (2 * t.capacity)
  | some cap =>
    if cap ≤ t.capacity ∧ 0 < t.nodes.length then t
    else resize_tree_clf_force t cap

/-- Argument bundle of `add_node_tree` (its jit signature types `parent` as
`intp`, `depth`/`feature` and the index ranges as `uintp`, `bin_threshold` as
`uint8`, the remaining floats as `float32`). -/
structure AddNodeArgs where
  parent : Int
  depth : ℕ
  is_left : Bool
  is_leaf : Bool
  feature : ℕ
  threshold : ℚ
  bin_threshold : ℕ
  impurity : ℚ
  n_samples_train : ℕ
  n_samples_valid : ℕ
  w_samples_train : ℚ
  w_samples_valid : ℚ
  start_train : ℕ
  end_train : ℕ
  start_valid : ℕ
  end_valid : ℕ
  loss_valid : ℚ

instance : Inhabited AddNodeArgs :=
  ⟨{ parent := TREE_UNDEFINED, depth := 0, is_left := false, is_leaf := true,
     feature := 0, threshold := 0, bin_threshold := 0, impurity := 0,
     n_samples_train := 0, n_samples_valid := 0, w_samples_train := 0,
     w_samples_valid := 0, start_train := 0, end_train := 0, start_valid := 0,
     end_valid := 0, loss_valid := 0 }⟩

/-- The first block of field writes in `add_node_tree` (everything before the
parent-linking `if`): the slot keeps its previous `left_child`,
`right_child`, `feature`, `threshold`, `bin_threshold`, and `log_weight_tree`
is unconditionally set to `np.nan` (modelled by `none`). -/
def write_common (n0 : NodeRec) (node_idx : ℕ) (a : AddNodeArgs) : NodeRec :=
  { n0 with node_id := node_idx, parent := a.parent, depth := a.depth,
            is_leaf := a.is_leaf, impurity := a.impurity,
            n_samples_train := a.n_samples_train,
            n_samples_valid := a.n_samples_valid,
            w_samples_train := a.w_samples_train,
            w_samples_valid := a.w_samples_valid,
            start_train := a.start_train, end_train := a.end_train,
            start_valid := a.start_valid, end_valid := a.end_valid,
            loss_valid := a.loss_valid, log_weight_tree := none,
            is_left := a.is_left }

/-- The parent-linking `if` of `add_node_tree`: when `parent` is not the
undefined sentinel, write the new index into the parent's left or right child
slot. -/
def link_parent (nodes : List NodeRec) (node_idx : ℕ) (a : AddNodeArgs) :
    List NodeRec :=
  if a.parent ≠ TREE_UNDEFINED then
    let p := a.parent.toNat
    let pn := nodes.getD p default
    nodes.set p
      (if a.is_left then { pn with left_child := (node_idx : Int) }
       else { pn with right_child := (node_idx : Int) })
  else nodes

/-- The final `if is_leaf` block of `add_node_tree`: a leaf gets the
sentinels (`TREE_LEAF` children, `TREE_UNDEFINED` feature/threshold, and the
`TREE_UNDEFINED` stored into the unsigned 8-bit `bin_threshold` wraps
mod `2 ^ 8`); an internal node gets the supplied split fields. -/
def write_split (n2 : NodeRec) (a : AddNodeArgs) : NodeRec :=
  if a.is_leaf then
    { n2 with left_child := TREE_LEAF, right_child := TREE_LEAF,
              feature := TREE_UNDEFINED, threshold := (TREE_UNDEFINED : Int),
              bin_threshold := toUint8 TREE_UNDEFINED }
  else
    { n2 with feature := (a.feature : Int), threshold := a.threshold,
              bin_threshold := a.bin_threshold % 256 }

/-- Embedding of `add_node_tree` (classifier instantiation): grows the arena
if full, writes the common fields (always putting `np.nan`, i.e. `none`, into
`log_weight_tree`), links the parent's child slot, then writes the split
fields.  Returns the updated tree and the new node's index.  The writes
follow the statement order of the source. -/
def add_node_tree (t : TreeClassifier) (a : AddNodeArgs) : TreeClassifier × ℕ :=
  let t := if t.capacity ≤ t.node_count then resize_tree_clf t none else t
  let node_idx := t.node_count
  let nodes1 := t.nodes.set node_idx
    (write_common (t.nodes.getD node_idx default) node_idx a)
  let nodes2 := link_parent nodes1 node_idx a
  let nodes3 := nodes2.set node_idx
    (write_split (nodes2.getD node_idx default) a)
  ({ t with nodes := nodes3, node_count := node_idx + 1 }, node_idx)

/-- Building a tree by a sequence of `add_node_tree` calls (dropping the
returned indices). -/
def build_tree (t : TreeClassifier) (args : List AddNodeArgs) : TreeClassifier :=
  args.foldl (fun t a => (add_node_tree t a).1) t

/-- Embedding of `find_leaf`'s `while` loop with explicit fuel (the source
loop has none; `find_leaf` below supplies fuel `nodes.length`, shown
sufficient under the structural invariants in the claim C6 theorem): at a
non-leaf, go to the left child iff the sample's bin code at the node's
feature is `≤ bin_threshold`, else to the right child. -/
def find_leaf_loop (nodes : List NodeRec) (xi : List ℕ) : ℕ → ℕ → ℕ
  | 0, idx => idx
  | fuel + 1, idx =>
    let node := nodes.getD idx default
    if node.is_leaf then idx
    else if xi.getD node.feature.toNat 0 ≤ node.bin_threshold then
      find_leaf_loop nodes xi fuel node.left_child.toNat
    else
      find_leaf_loop nodes xi fuel node.right_child.toNat

/-- Embedding of `find_leaf`: start at the root (index 0) and descend. -/
def find_leaf (nodes : List NodeRec) (xi : List ℕ) : ℕ :=
  find_leaf_loop nodes xi nodes.length 0

/-- The body of the classifier/regressor aggregation step (scalar form), as it
appears inside the `while` loops of `tree_regressor_predict`:
`loss = -step * loss_valid`, `alpha = 0.5 * exp(loss - log_weight_tree)`,
`pred = alpha * node_pred + (1 - alpha) * pred`.  `none` models IEEE NaN: if
the node's `log_weight_tree` is NaN, `exp` of it is NaN and the whole update
is NaN, and a NaN running prediction stays NaN. -/
def ctw_combine (e : ℚ → ℚ) (step : ℚ) (node : NodeRec) (node_pred : ℚ)
    (p : Option ℚ) : Option ℚ :=
  match node.log_weight_tree, p with
  | some w, some pv =>
    let alpha : ℚ := (1 / 2 : ℚ) * e (-step * node.loss_valid - w)
    some (alpha * node_pred + (1 - alpha) * pv)
  | _, _ => none

/-- Vector form of the aggregation step, as in `tree_classifier_predict_proba`
(`pred_i[:] = alpha * node_pred + (1 - alpha) * pred_i` elementwise over the
`n_classes` entries). -/
def ctw_combine_vec (e : ℚ → ℚ) (step : ℚ) (node : NodeRec)
    (node_pred : List ℚ) (p : Option (List ℚ)) : Option (List ℚ) :=
  match node.log_weight_tree, p with
  | some w, some pv =>
    let alpha : ℚ := (1 / 2 : ℚ) * e (-step * node.loss_valid - w)
    some (List.zipWith (fun v q => alpha * v + (1 - alpha) * q) node_pred pv)
  | _, _ => none

/-- The `while idx_current != 0` ancestor walk of `tree_regressor_predict`,
with explicit fuel (each iteration replaces the index by its parent). -/
def agg_loop_reg (e : ℚ → ℚ) (step : ℚ) (nodes : List NodeRec)
    (y_pred : List ℚ) : ℕ → ℕ → Option ℚ → Option ℚ
  | 0, _, p => p
  | fuel + 1, idx, p =>
    if idx = 0 then p
    else
      let j := ((nodes.getD idx default).parent).toNat
      agg_loop_reg e step nodes y_pred fuel j
        (ctw_combine e step (nodes.getD j default) (y_pred.getD j 0) p)

/-- The `while idx_current != 0` ancestor walk of
`tree_classifier_predict_proba`, with explicit fuel. -/
def agg_loop_clf (e : ℚ → ℚ) (step : ℚ) (nodes : List NodeRec)
    (y_pred : List (List ℚ)) : ℕ → ℕ → Option (List ℚ) → Option (List ℚ)
  | 0, _, p => p
  | fuel + 1, idx, p =>
    if idx = 0 then p
    else
      let j := ((nodes.getD idx default).parent).toNat
      agg_loop_clf e step nodes y_pred fuel j
        (ctw_combine_vec e step (nodes.getD j default) (y_pred.getD j []) p)

/-- Embedding of `tree_regressor_predict`: per row, find the leaf, take its
stored prediction, and if `aggregation` run the ancestor walk (fuel
`nodes.length`, shown sufficient in the claim C1 theorem). -/
def tree_regressor_predict (e : ℚ → ℚ) (tree : TreeRegressor)
    (X : List (List ℕ)) (aggregation : Bool) (step : ℚ) : List (Option ℚ) :=
  X.map fun xi =>
    let idx := find_leaf tree.nodes xi
    let pred : Option ℚ := some (tree.y_pred.getD idx 0)
    if aggregation then
      agg_loop_reg e step tree.nodes tree.y_pred tree.nodes.length idx pred
    else pred

/-- Embedding of `tree_classifier_predict_proba`: per row, find the leaf, copy
its stored class-probability row, and if `aggregation` run the ancestor
walk. -/
def tree_classifier_predict_proba (e : ℚ → ℚ) (tree : TreeClassifier)
    (X : List (List ℕ)) (aggregation : Bool) (step : ℚ) :
    List (Option (List ℚ)) :=
  X.map fun xi =>
    let idx := find_leaf tree.nodes xi
    let pred : Option (List ℚ) :=
      some (tree.y_pred.getD idx (List.replicate tree.n_classes 0))
    if aggregation then
      agg_loop_clf e step tree.nodes tree.y_pred tree.nodes.length idx pred
    else pred

/-- The chain of ancestors visited by the aggregation walk starting from
`idx`: the parent of `idx`, then its parent, …, ending with the root 0 (empty
when `idx` is already the root), with explicit fuel. -/
def ancestor_chain (nodes : List NodeRec) : ℕ → ℕ → List ℕ
  | 0, _ => []
  | fuel + 1, idx =>
    if idx = 0 then []
    else
      let j := ((nodes.getD idx default).parent).toNat
      j :: ancestor_chain nodes fuel j

/-- Specification-side combining step (spec section 4.3), over finite values:
`P` is replaced by `alpha * V_a + (1 - alpha) * P` with
`alpha = 0.5 * exp(-step * loss_valid(a) - log_weight_tree(a))`. -/
def spec_combine (e : ℚ → ℚ) (step : ℚ) (nd : NodeRec) (v P : ℚ) : ℚ :=
  let alpha : ℚ :=
    (1 / 2 : ℚ) * e (-step * nd.loss_valid - nd.log_weight_tree.getD 0)
  alpha * v + (1 - alpha) * P

/-- Specification-side combining step, per-class vector form (the same
`alpha` applied to every class entry). -/
def spec_combine_vec (e : ℚ → ℚ) (step : ℚ) (nd : NodeRec) (v P : List ℚ) :
    List ℚ :=
  let alpha : ℚ :=
    (1 / 2 : ℚ) * e (-step * nd.loss_valid - nd.log_weight_tree.getD 0)
  List.zipWith (fun x q => alpha * x + (1 - alpha) * q) v P

/-- Specification-side aggregation fold (spec section 4.3), scalar form:
starting from the leaf's stored prediction, fold `spec_combine` over the
ancestor chain in order (leaf's parent first, root last). -/
def spec_aggregate_reg (e : ℚ → ℚ) (step : ℚ) (nodes : List NodeRec)
    (y_pred : List ℚ) (chain : List ℕ) (leaf_pred : ℚ) : ℚ :=
  chain.foldl
    (fun P a => spec_combine e step (nodes.getD a default) (y_pred.getD a 0) P)
    leaf_pred

/-- Specification-side aggregation fold, per-class vector form. -/
def spec_aggregate_clf (e : ℚ → ℚ) (step : ℚ) (nodes : List NodeRec)
    (y_pred : List (List ℚ)) (chain : List ℕ) (leaf_pred : List ℚ) : List ℚ :=
  chain.foldl
    (fun P a =>
      spec_combine_vec e step (nodes.getD a default) (y_pred.getD a []) P)
    leaf_pred

/-- Specification-side `predict_raw` for the regressor (spec section 4.3):
`find_leaf` then the leaf's stored prediction, no aggregation. -/
def predict_raw_reg (tree : TreeRegressor) (xi : List ℕ) : ℚ :=
  tree.y_pred.getD (find_leaf tree.nodes xi) 0

/-- Specification-side `predict_raw` for the classifier. -/
def predict_raw_clf (tree : TreeClassifier) (xi : List ℕ) : List ℚ :=
  tree.y_pred.getD (find_leaf tree.nodes xi) (List.replicate tree.n_classes 0)

/-- Modelled from the spec: the position/index type `SIZE_t` is defined in
`_utils.py`, which is not part of the shown core; spec section 6 types every
sample-range index (`start_train`, `end_train`, `start_valid`, `end_valid`)
as unsigned 64-bit, so positions are modelled as naturals `< 2 ^ 64` and the
subtraction in `criterion_update`'s branch condition wraps mod `2 ^ 64`.
`usub64 a b` is `(a - b) mod 2 ^ 64` for `a, b < 2 ^ 64`. -/
def usub64 (a b : ℕ) : ℕ := (a + 2 ^ 64 - b) % 2 ^ 64

/-- State of a `ClassificationCriterion` / `Gini` jitclass over one node's
sample range.  Targets `y` are modelled directly as class indices (the code
casts the float `y[i, k]` to `SIZE_t`); the per-output per-class statistic
arrays are total functions; `sample_weight` is a list because the code uses
the empty array as the sentinel for uniform weight 1; `end` is a Lean
keyword, so the field is named `endp`. -/
structure ClfCriterion where
  y : ℕ → ℕ → ℕ
  sample_weight : List ℚ
  samples : ℕ → ℕ
  start : ℕ
  pos : ℕ
  endp : ℕ
  n_outputs : ℕ
  n_node_samples : ℕ
  n_classes : ℕ → ℕ
  weighted_n_samples : ℚ
  weighted_n_node_samples : ℚ
  weighted_n_left : ℚ
  weighted_n_right : ℚ
  sum_total : ℕ → ℕ → ℚ
  sum_left : ℕ → ℕ → ℚ
  sum_right : ℕ → ℕ → ℚ

/-- Weight of sample `i`: the code initializes `w = 1.0` and overwrites it
from `sample_weight[i]` only when the weight vector is nonempty. -/
def weight_of (sw : List ℚ) (i : ℕ) : ℚ :=
  if sw.length ≠ 0 then sw.getD i 0 else 1

/-- Pointwise in-place update `f[k, c] += w` of a statistic matrix. -/
def bump (f : ℕ → ℕ → ℚ) (k c : ℕ) (w : ℚ) : ℕ → ℕ → ℚ :=
  fun k2 c2 => if k2 = k ∧ c2 = c then f k2 c2 + w else f k2 c2

/-- The inner `for k in range(n_outputs)` loop shared by `init` and `update`:
add `w` into `sum[k, y[i, k]]` for every output `k`. -/
def add_sample (n_outputs : ℕ) (y : ℕ → ℕ → ℕ) (i : ℕ) (w : ℚ)
    (s : ℕ → ℕ → ℚ) : ℕ → ℕ → ℚ :=
  (List.range n_outputs).foldl (fun s k => bump s k (y i k) w) s

/-- Embedding of `criterion_reset`: cursor to `start`, `sum_left` zeroed,
`sum_right` copied from `sum_total`. -/
def criterion_reset (c : ClfCriterion) : ClfCriterion :=
  { c with pos := c.start,
           weighted_n_left := 0,
           weighted_n_right := c.weighted_n_node_samples,
           sum_left := fun _ _ => 0,
           sum_right := c.sum_total }

/-- Embedding of `criterion_reverse_reset`: cursor to `end`, `sum_right`
zeroed, `sum_left` copied from `sum_total`. -/
def criterion_reverse_reset (c : ClfCriterion) : ClfCriterion :=
  { c with pos := c.endp,
           weighted_n_left := c.weighted_n_node_samples,
           weighted_n_right := 0,
           sum_left := c.sum_total,
           sum_right := fun _ _ => 0 }

/-- One iteration of the `init` scan loop: add the sample's weight into
`sum_total[k, y[i, k]]` for every output and into the node's total weight. -/
def init_step (acc : ClfCriterion) (p : ℕ) : ClfCriterion :=
  let i := acc.samples p
  let w := weight_of acc.sample_weight i
  { acc with sum_total := add_sample acc.n_outputs acc.y i w acc.sum_total,
             weighted_n_node_samples := acc.weighted_n_node_samples + w }

/-- One iteration of `update`'s forward loop: add the sample's weight into
`sum_left[k, y[i, k]]` for every output and into `weighted_n_left`. -/
def update_forward_step (acc : ClfCriterion) (p : ℕ) : ClfCriterion :=
  let i := acc.samples p
  let w := weight_of acc.sample_weight i
  { acc with sum_left := add_sample acc.n_outputs acc.y i w acc.sum_left,
             weighted_n_left := acc.weighted_n_left + w }

/-- One iteration of `update`'s backward loop: subtract the sample's weight
from `sum_left[k, y[i, k]]` for every output and from `weighted_n_left`. -/
def update_backward_step (acc : ClfCriterion) (p : ℕ) : ClfCriterion :=
  let i := acc.samples p
  let w := weight_of acc.sample_weight i
  { acc with sum_left := add_sample acc.n_outputs acc.y i (-w) acc.sum_left,
             weighted_n_left := acc.weighted_n_left - w }

/-- Embedding of `classification_criterion_init`: store the inputs, zero
`sum_total`, scan `samples[start:end]` once accumulating the weighted
per-class counts and the node's total weight, then `criterion_reset`.
`init_base` is the opening block of field writes. -/
def init_base (c : ClfCriterion) (y : ℕ → ℕ → ℕ) (sample_weight : List ℚ)
    (weighted_n_samples : ℚ) (samples : ℕ → ℕ) (start endp : ℕ) :
    ClfCriterion :=
  { c with y := y, sample_weight := sample_weight, samples := samples,
           start := start, endp := endp, n_node_samples := endp - start,
           weighted_n_samples := weighted_n_samples,
           weighted_n_node_samples := 0,
           sum_total := fun _ _ => 0 }

/-- Embedding of the scan loop and trailing `reset` of
`classification_criterion_init` (see `init_base` above for the opening field
writes). -/
def classification_criterion_init (c : ClfCriterion) (y : ℕ → ℕ → ℕ)
    (sample_weight : List ℚ) (weighted_n_samples : ℚ) (samples : ℕ → ℕ)
    (start endp : ℕ) : ClfCriterion :=
  let c1 := (List.range' start (endp - start)).foldl init_step
    (init_base c y sample_weight weighted_n_samples samples start endp)
  criterion_reset c1

/-- Embedding of `criterion_update`: if `(new_pos - pos) ≤ (end - new_pos)`
(SIZE_t subtraction, see `usub64`) walk forward over `samples[pos:new_pos]`
adding into the left statistics; otherwise `criterion_reverse_reset` and walk
backward over `samples[end-1:new_pos-1:-1]` subtracting from them.  Either
way, recompute the right statistics as total minus left and set the
cursor.  `update_finalize` is the trailing write-back block
(`sum_right[:] = sum_total - sum_left`, the weighted counterpart, and the
cursor assignment). -/
def update_finalize (c1 : ClfCriterion) (new_pos : ℕ) : ClfCriterion :=
  { c1 with
      weighted_n_right := c1.weighted_n_node_samples - c1.weighted_n_left,
      sum_right := fun k cls => c1.sum_total k cls - c1.sum_left k cls,
      pos := new_pos }

/-- Embedding of the branch and loops of `criterion_update` (see the comment
on `update_finalize` above for the shared trailing block). -/
def criterion_update (c : ClfCriterion) (new_pos : ℕ) : ClfCriterion :=
  let pos := c.pos
  let endp := c.endp
  let c1 :=
    if usub64 new_pos pos ≤ usub64 endp new_pos then
      (List.range' pos (new_pos - pos)).foldl update_forward_step c
    else
      ((List.range' new_pos (endp - new_pos)).reverse).foldl
        update_backward_step (criterion_reverse_reset c)
  update_finalize c1 new_pos

/-- Embedding of `gini_node_impurity` (the stray debug `print(criterion)` in
the source has no effect on the returned value): mean over outputs of
`1 - (sum of squared class counts) / weighted_n_node_samples ^ 2`. -/
def gini_node_impurity (c : ClfCriterion) : ℚ :=
  let gini := (List.range c.n_outputs).foldl
    (fun gini k =>
      let sq_count := (List.range (c.n_classes k)).foldl
        (fun sq cls => sq + c.sum_total k cls * c.sum_total k cls) 0
      gini + (1 - sq_count /
        (c.weighted_n_node_samples * c.weighted_n_node_samples)))
    0
  gini / (c.n_outputs : ℚ)

/-- Embedding of `gini_children_impurity`: the same Gini formula evaluated
separately on the left statistics (with `weighted_n_left`) and the right
statistics (with `weighted_n_right`); returns `(left, right)`. -/
def gini_children_impurity (c : ClfCriterion) : ℚ × ℚ :=
  let acc := (List.range c.n_outputs).foldl
    (fun acc k =>
      let sq := (List.range (c.n_classes k)).foldl
        (fun sq cls =>
          (sq.1 + c.sum_left k cls * c.sum_left k cls,
           sq.2 + c.sum_right k cls * c.sum_right k cls))
        ((0 : ℚ), (0 : ℚ))
      (acc.1 + (1 - sq.1 / (c.weighted_n_left * c.weighted_n_left)),
       acc.2 + (1 - sq.2 / (c.weighted_n_right * c.weighted_n_right))))
    ((0 : ℚ), (0 : ℚ))
  (acc.1 / (c.n_outputs : ℚ), acc.2 / (c.n_outputs : ℚ))

/-- Embedding of `criterion_proxy_impurity_improvement`:
`- weighted_n_right * impurity_right - weighted_n_left * impurity_left` with
the children impurities taken from `gini_children_impurity` (as in the
source). -/
def criterion_proxy_impurity_improvement (c : ClfCriterion) : ℚ :=
  let ir := gini_children_impurity c;
  -c.weighted_n_right * ir.2 - c.weighted_n_left * ir.1

/-- Embedding of `criterion_impurity_improvement`:
`(N_t / N) * (impurity_parent - N_t_R / N_t * impurity_right
- N_t_L / N_t * impurity_left)`. -/
def criterion_impurity_improvement (c : ClfCriterion)
    (impurity_parent impurity_left impurity_right : ℚ) : ℚ :=
  (c.weighted_n_node_samples / c.weighted_n_samples) *
    (impurity_parent -
      (c.weighted_n_right / c.weighted_n_node_samples * impurity_right) -
      (c.weighted_n_left / c.weighted_n_node_samples * impurity_left))

/-! Helper lemmas about list access. -/

theorem getD_set_self {α : Type} (l : List α) (n : ℕ) (v d : α)
    (h : n < l.length) : (l.set n v).getD n d = v := by
  rw [List.getD_eq_getElem _ _ (by simpa using h)]
  exact List.getElem_set_self (by simpa using h)

theorem getD_set_ne {α : Type} (l : List α) (m n : ℕ) (v d : α)
    (h : m ≠ n) : (l.set m v).getD n d = l.getD n d := by
  by_cases hn : n < l.length
  · rw [List.getD_eq_getElem _ _ (by simpa using hn),
      List.getD_eq_getElem _ _ hn]
    exact List.getElem_set_ne h _
  · rw [List.getD_eq_default _ _ (by simpa using Nat.le_of_not_lt hn),
      List.getD_eq_default _ _ (Nat.le_of_not_lt hn)]

theorem length_resizeList {α : Type} (l : List α) (n : ℕ) (fill : α)
    (h : l.length ≤ n) : (resizeList l n fill).length = n := by
  simp [resizeList]
  omega

/-! Arena growth facts for claim C5. -/

/-- Capacity well-formedness maintained by `add_node_tree`: the arena never
holds more nodes than its capacity, the node array's length is the capacity,
and the capacity is either 0 (fresh) or of the form `3 * 2 ^ k`. -/
def CapOK (t : TreeClassifier) : Prop :=
  t.node_count ≤ t.capacity ∧ t.nodes.length = t.capacity ∧
    (t.capacity = 0 ∨ ∃ k, t.capacity = 3 * 2 ^ k)

theorem build_tree_nil (t : TreeClassifier) : build_tree t [] = t := rfl

theorem build_tree_cons (t : TreeClassifier) (a : AddNodeArgs)
    (l : List AddNodeArgs) :
    build_tree t (a :: l) = build_tree (add_node_tree t a).1 l := rfl

theorem build_tree_append (t : TreeClassifier) (l1 l2 : List AddNodeArgs) :
    build_tree t (l1 ++ l2) = build_tree (build_tree t l1) l2 := by
  simp [build_tree]

theorem add_node_tree_node_count (t : TreeClassifier) (a : AddNodeArgs) :
    (add_node_tree t a).1.node_count = t.node_count + 1 := by
  by_cases h1 : t.capacity ≤ t.node_count <;>
    by_cases h0 : t.capacity = 0 <;>
      simp [add_node_tree, resize_tree_clf, resize_tree_clf_force, h1, h0]

theorem add_node_tree_capacity (t : TreeClassifier) (a : AddNodeArgs) :
    (add_node_tree t a).1.capacity
      = if t.capacity ≤ t.node_count then
          (if t.capacity = 0 then 3 else 2 * t.capacity)
        else t.capacity := by
  by_cases h1 : t.capacity ≤ t.node_count <;>
    by_cases h0 : t.capacity = 0 <;>
      simp [add_node_tree, resize_tree_clf, resize_tree_clf_force, h1, h0]

theorem link_parent_length (nodes : List NodeRec) (node_idx : ℕ)
    (a : AddNodeArgs) : (link_parent nodes node_idx a).length = nodes.length := by
  by_cases h : a.parent ≠ TREE_UNDEFINED <;>
    simp [link_parent, h, List.length_set]

theorem add_node_tree_nodes_length (t : TreeClassifier) (a : AddNodeArgs)
    (hlen : t.nodes.length = t.capacity) :
    (add_node_tree t a).1.nodes.length = (add_node_tree t a).1.capacity := by
  rw [add_node_tree_capacity]
  by_cases h1 : t.capacity ≤ t.node_count <;>
    by_cases h0 : t.capacity = 0 <;>
      simp [add_node_tree, resize_tree_clf, resize_tree_clf_force, h1, h0,
        apply_ite List.length, List.length_set, link_parent_length,
        resizeList] <;> omega

theorem add_node_tree_capOK {t : TreeClassifier} (a : AddNodeArgs)
    (h : CapOK t) : CapOK (add_node_tree t a).1 := by
  obtain ⟨hcnt, hlen, hform⟩ := h
  have hcap3 : t.capacity = 0 ∨ 3 ≤ t.capacity := by
    rcases hform with h0 | ⟨k, hk⟩
    · exact Or.inl h0
    · right
      rw [hk]
      have : 1 ≤ 2 ^ k := Nat.one_le_two_pow
      omega
  refine ⟨?_, add_node_tree_nodes_length t a hlen, ?_⟩
  · rw [add_node_tree_node_count, add_node_tree_capacity]
    by_cases h1 : t.capacity ≤ t.node_count <;>
      by_cases h0 : t.capacity = 0 <;> simp [h1, h0] <;> omega
  · rw [add_node_tree_capacity]
    by_cases h1 : t.capacity ≤ t.node_count
    · by_cases h0 : t.capacity = 0
      · simp only [h1, if_true, h0]
        exact Or.inr ⟨0, by norm_num⟩
      · simp only [h1, if_true, h0, if_false]
        rcases hform with h0x | ⟨k, hk⟩
        · exact absurd h0x h0
        · exact Or.inr ⟨k + 1, by rw [hk]; ring⟩
    · simpa [h1] using hform

theorem add_node_tree_capacity_mono (t : TreeClassifier) (a : AddNodeArgs) :
    t.capacity ≤ (add_node_tree t a).1.capacity := by
  rw [add_node_tree_capacity]
  by_cases h1 : t.capacity ≤ t.node_count <;>
    by_cases h0 : t.capacity = 0 <;> simp [h1, h0] <;> omega

theorem build_tree_node_count (args : List AddNodeArgs) :
    ∀ t : TreeClassifier,
      (build_tree t args).node_count = t.node_count + args.length := by
  induction args with
  | nil => intro t; simp [build_tree_nil]
  | cons a l ih =>
    intro t
    rw [build_tree_cons, ih, add_node_tree_node_count]
    simp
    omega

theorem build_tree_capOK (args : List AddNodeArgs) :
    ∀ t : TreeClassifier, CapOK t → CapOK (build_tree t args) := by
  induction args with
  | nil => intro t h; simpa [build_tree_nil] using h
  | cons a l ih =>
    intro t h
    rw [build_tree_cons]
    exact ih _ (add_node_tree_capOK a h)

theorem build_tree_capacity_mono (args : List AddNodeArgs) :
    ∀ t : TreeClassifier, t.capacity ≤ (build_tree t args).capacity := by
  induction args with
  | nil => intro t; simp [build_tree_nil]
  | cons a l ih =>
    intro t
    rw [build_tree_cons]
    exact le_trans (add_node_tree_capacity_mono t a) (ih _)

theorem resize_tree_clf_node_count (t : TreeClassifier) (c : Option ℕ) :
    (resize_tree_clf t c).node_count = t.node_count := by
  rcases c with _ | cap <;>
    simp [resize_tree_clf, resize_tree_clf_force,
      apply_ite TreeClassifier.node_count]

theorem link_parent_getD_self_lwt (nodes : List NodeRec) (idx : ℕ)
    (a : AddNodeArgs) (h : idx < nodes.length) :
    ((link_parent nodes idx a).getD idx default).log_weight_tree
      = (nodes.getD idx default).log_weight_tree := by
  simp only [link_parent]
  by_cases hpar : a.parent ≠ TREE_UNDEFINED
  · rw [if_pos hpar]
    by_cases hp : a.parent.toNat = idx
    · rw [hp, getD_set_self _ _ _ _ h]
      by_cases hl : a.is_left <;> simp [hl]
    · rw [getD_set_ne _ _ _ _ _ hp]
  · rw [if_neg hpar]

theorem add_node_tree_new_node (t : TreeClassifier) (a : AddNodeArgs)
    (hlen : t.nodes.length = t.capacity) (hcnt : t.node_count ≤ t.capacity) :
    ((add_node_tree t a).1.nodes.getD t.node_count default).log_weight_tree
        = none ∧
    (a.is_leaf = true →
      ((add_node_tree t a).1.nodes.getD t.node_count default).left_child
          = TREE_LEAF ∧
      ((add_node_tree t a).1.nodes.getD t.node_count default).right_child
          = TREE_LEAF ∧
      ((add_node_tree t a).1.nodes.getD t.node_count default).feature
          = TREE_UNDEFINED ∧
      ((add_node_tree t a).1.nodes.getD t.node_count default).bin_threshold
          = toUint8 TREE_UNDEFINED) := by
  have hlt : t.node_count <
      (if t.capacity ≤ t.node_count then resize_tree_clf t none else t).nodes.length := by
    by_cases h1 : t.capacity ≤ t.node_count
    · by_cases h0 : t.capacity = 0 <;>
        simp [h1, h0, resize_tree_clf, resize_tree_clf_force, resizeList] <;>
        omega
    · simp only [h1, if_false]
      omega
  have hcount : (if t.capacity ≤ t.node_count then resize_tree_clf t none
      else t).node_count = t.node_count := by
    by_cases h1 : t.capacity ≤ t.node_count <;>
      simp [h1, resize_tree_clf_node_count]
  generalize hT : (if t.capacity ≤ t.node_count then resize_tree_clf t none
      else t) = t1 at hlt hcount
  have hmain : (add_node_tree t a).1.nodes.getD t.node_count default
      = write_split
          ((link_parent
              (t1.nodes.set t.node_count
                (write_common (t1.nodes.getD t.node_count default)
                  t.node_count a))
              t.node_count a).getD t.node_count default) a := by
    simp only [add_node_tree, hT, hcount]
    apply getD_set_self
    rw [link_parent_length, List.length_set]
    exact hlt
  have hlw2 : ((link_parent
      (t1.nodes.set t.node_count
        (write_common (t1.nodes.getD t.node_count default) t.node_count a))
      t.node_count a).getD t.node_count default).log_weight_tree = none := by
    rw [link_parent_getD_self_lwt _ _ _ (by simpa using hlt),
      getD_set_self _ _ _ _ hlt]
    rfl
  constructor
  · rw [hmain]
    by_cases hleaf : a.is_leaf <;> simpa [write_split, hleaf] using hlw2
  · intro hleaf
    rw [hmain]
    simp [write_split, hleaf]

/-- Claim C2: with aggregation disabled, both prediction operations return,
for each row of the batch, exactly the stored prediction of the leaf found by
`find_leaf` for that row — that is, they equal `predict_raw` exactly. -/
theorem claim_C2 (e : ℚ → ℚ) (tc : TreeClassifier) (tr : TreeRegressor)
    (X : List (List ℕ)) (step : ℚ) :
    tree_classifier_predict_proba e tc X false step
        = X.map (fun xi => some (predict_raw_clf tc xi)) ∧
    tree_regressor_predict e tr X false step
        = X.map (fun xi => some (predict_raw_reg tr xi)) := by
  constructor <;>
    simp [tree_classifier_predict_proba, tree_regressor_predict,
      predict_raw_clf, predict_raw_reg]

/-- Claim C5: starting from a fresh tree (capacity 0, node count 0), after
`n` appends `node_count = n` and `capacity ≥ n`; a single append changes the
capacity only by setting it to 3 when it is 0 and doubling it when the arena
is full, so the capacity only takes the values `3 * 2 ^ k` (after the first
growth) and never decreases along the build. -/
theorem claim_C5 (n_features n_classes : ℕ) (args : List AddNodeArgs) :
    (build_tree (freshTreeClassifier n_features n_classes) args).node_count
        = args.length ∧
    args.length ≤
      (build_tree (freshTreeClassifier n_features n_classes) args).capacity ∧
    ((build_tree (freshTreeClassifier n_features n_classes) args).capacity = 0
      ∨ ∃ k, (build_tree (freshTreeClassifier n_features n_classes)
                args).capacity = 3 * 2 ^ k) ∧
    (∀ t : TreeClassifier, ∀ a : AddNodeArgs,
      (add_node_tree t a).1.capacity
        = if t.capacity ≤ t.node_count then
            (if t.capacity = 0 then 3 else 2 * t.capacity)
          else t.capacity) ∧
    (∀ pre suf : List AddNodeArgs, args = pre ++ suf →
      (build_tree (freshTreeClassifier n_features n_classes) pre).capacity ≤
        (build_tree (freshTreeClassifier n_features n_classes) args).capacity) := by
  have hfresh : CapOK (freshTreeClassifier n_features n_classes) :=
    ⟨Nat.le_refl 0, rfl, Or.inl rfl⟩
  have hok := build_tree_capOK args _ hfresh
  have hcount := build_tree_node_count args
    (freshTreeClassifier n_features n_classes)
  refine ⟨by simpa [freshTreeClassifier] using hcount, ?_, hok.2.2, ?_, ?_⟩
  · have := hok.1
    omega
  · intro t a
    exact add_node_tree_capacity t a
  · intro pre suf hsplit
    rw [hsplit, build_tree_append]
    exact build_tree_capacity_mono suf _

/-- Witness for claim C5 at a concrete input: four appends to a fresh tree. -/
theorem claim_C5_witness :
    (build_tree (freshTreeClassifier 1 2)
        [default, default, default, default]).node_count = 4 ∧
    (build_tree (freshTreeClassifier 1 2) [default]).capacity ≤
      (build_tree (freshTreeClassifier 1 2)
        [default, default, default, default]).capacity := by
  have h := claim_C5 1 2 [default, default, default, default]
  exact ⟨by simpa using h.1,
    h.2.2.2.2 [default] [default, default, default] rfl⟩

/-- Claim C10: a node appended with `is_leaf = true` stores `-1` into both
signed child fields and `-2` into the signed feature field, but the `-2`
sentinel written into the unsigned 8-bit `bin_threshold` wraps mod `2 ^ 8`
and reads back as 254. -/
theorem claim_C10 (t : TreeClassifier) (a : AddNodeArgs)
    (hlen : t.nodes.length = t.capacity) (hcnt : t.node_count ≤ t.capacity)
    (hleaf : a.is_leaf = true) :
    ((add_node_tree t a).1.nodes.getD t.node_count default).left_child
        = -1 ∧
    ((add_node_tree t a).1.nodes.getD t.node_count default).right_child
        = -1 ∧
    ((add_node_tree t a).1.nodes.getD t.node_count default).feature = -2 ∧
    ((add_node_tree t a).1.nodes.getD t.node_count default).bin_threshold
        = toUint8 TREE_UNDEFINED ∧
    toUint8 TREE_UNDEFINED = 254 := by
  obtain ⟨-, hfields⟩ := add_node_tree_new_node t a hlen hcnt
  obtain ⟨h1, h2, h3, h4⟩ := hfields hleaf
  exact ⟨h1, h2, h3, h4, by decide⟩

/-- Witness for claim C10: appending a leaf to a fresh tree. -/
theorem claim_C10_witness :
    ((freshTreeClassifier 1 2).nodes.length
        = (freshTreeClassifier 1 2).capacity ∧
      (freshTreeClassifier 1 2).node_count
        ≤ (freshTreeClassifier 1 2).capacity ∧
      (default : AddNodeArgs).is_leaf = true) ∧
    ((add_node_tree (freshTreeClassifier 1 2) default).1.nodes.getD
        (freshTreeClassifier 1 2).node_count default).bin_threshold = 254 := by
  refine ⟨⟨rfl, Nat.le_refl 0, rfl⟩, ?_⟩
  have h := claim_C10 (freshTreeClassifier 1 2) default rfl (Nat.le_refl 0) rfl
  rw [h.2.2.2.1]
  exact h.2.2.2.2

/-! Leaf reachability (claim C6). -/

/-- Formalization of the structural invariants of spec section 3 used by
`find_leaf`: every internal node has both children present in the arena
(non-negative indices below the length), and a rank function strictly
decreases from a node to its children — the finite-rooted-tree /
no-cycles condition, witnessed by e.g. "longest path to a leaf", which is
always `< nodes.length` on a finite tree. -/
def ChildInv (nodes : List NodeRec) (rank : ℕ → ℕ) : Prop :=
  (∀ i, i < nodes.length → rank i < nodes.length) ∧
  (∀ i, i < nodes.length → (nodes.getD i default).is_leaf = false →
    0 ≤ (nodes.getD i default).left_child ∧
    (nodes.getD i default).left_child.toNat < nodes.length ∧
    rank (nodes.getD i default).left_child.toNat < rank i ∧
    0 ≤ (nodes.getD i default).right_child ∧
    (nodes.getD i default).right_child.toNat < nodes.length ∧
    rank (nodes.getD i default).right_child.toNat < rank i)

theorem find_leaf_loop_succ (nodes : List NodeRec) (xi : List ℕ)
    (fuel idx : ℕ) :
    find_leaf_loop nodes xi (fuel + 1) idx
      = if (nodes.getD idx default).is_leaf then idx
        else if xi.getD (nodes.getD idx default).feature.toNat 0
            ≤ (nodes.getD idx default).bin_threshold then
          find_leaf_loop nodes xi fuel (nodes.getD idx default).left_child.toNat
        else
          find_leaf_loop nodes xi fuel
            (nodes.getD idx default).right_child.toNat := rfl

theorem find_leaf_loop_is_leaf (nodes : List NodeRec) (xi : List ℕ)
    (rank : ℕ → ℕ) (hinv : ChildInv nodes rank) :
    ∀ fuel idx, idx < nodes.length → rank idx < fuel →
      (nodes.getD (find_leaf_loop nodes xi fuel idx) default).is_leaf = true ∧
      find_leaf_loop nodes xi fuel idx < nodes.length := by
  intro fuel
  induction fuel with
  | zero => intro idx h1 h2; omega
  | succ f ih =>
    intro idx h1 h2
    by_cases hl : (nodes.getD idx default).is_leaf
    · rw [find_leaf_loop_succ, if_pos hl]
      exact ⟨hl, h1⟩
    · obtain ⟨hL0, hLlt, hLr, hR0, hRlt, hRr⟩ :=
        hinv.2 idx h1 (by simpa using hl)
      rw [find_leaf_loop_succ, if_neg hl]
      by_cases hc : xi.getD (nodes.getD idx default).feature.toNat 0
          ≤ (nodes.getD idx default).bin_threshold
      · rw [if_pos hc]
        exact ih _ hLlt (by omega)
      · rw [if_neg hc]
        exact ih _ hRlt (by omega)

theorem find_leaf_loop_stable (nodes : List NodeRec) (xi : List ℕ)
    (rank : ℕ → ℕ) (hinv : ChildInv nodes rank) :
    ∀ f1 f2 idx, idx < nodes.length → rank idx < f1 → rank idx < f2 →
      find_leaf_loop nodes xi f1 idx = find_leaf_loop nodes xi f2 idx := by
  intro f1
  induction f1 with
  | zero => intro f2 idx h1 h2; omega
  | succ f ih =>
    intro f2 idx h1 h2 h3
    cases f2 with
    | zero => omega
    | succ g =>
      by_cases hl : (nodes.getD idx default).is_leaf
      · rw [find_leaf_loop_succ, find_leaf_loop_succ, if_pos hl, if_pos hl]
      · obtain ⟨hL0, hLlt, hLr, hR0, hRlt, hRr⟩ :=
          hinv.2 idx h1 (by simpa using hl)
        rw [find_leaf_loop_succ, find_leaf_loop_succ, if_neg hl, if_neg hl]
        by_cases hc : xi.getD (nodes.getD idx default).feature.toNat 0
            ≤ (nodes.getD idx default).bin_threshold
        · rw [if_pos hc, if_pos hc]
          exact ih _ _ hLlt (by omega) (by omega)
        · rw [if_neg hc, if_neg hc]
          exact ih _ _ hRlt (by omega) (by omega)

/-- Claim C6: under the structural invariants, `find_leaf` returns an index
whose node is a leaf, inside the arena; the result is independent of any
sufficient fuel (the source's unbounded `while` loop terminates); and at each
internal node the loop steps to the left child iff the sample's bin code at
the node's feature is `≤ bin_threshold`, else to the right child. -/
theorem claim_C6 (nodes : List NodeRec) (xi : List ℕ) (rank : ℕ → ℕ)
    (h0 : 0 < nodes.length) (hinv : ChildInv nodes rank) :
    (nodes.getD (find_leaf nodes xi) default).is_leaf = true ∧
    find_leaf nodes xi < nodes.length ∧
    (∀ fuel, nodes.length ≤ fuel →
      find_leaf_loop nodes xi fuel 0 = find_leaf nodes xi) ∧
    (∀ fuel idx, (nodes.getD idx default).is_leaf = false →
      find_leaf_loop nodes xi (fuel + 1) idx
        = (if xi.getD (nodes.getD idx default).feature.toNat 0
              ≤ (nodes.getD idx default).bin_threshold
           then find_leaf_loop nodes xi fuel
                  (nodes.getD idx default).left_child.toNat
           else find_leaf_loop nodes xi fuel
                  (nodes.getD idx default).right_child.toNat)) := by
  have hrank0 : rank 0 < nodes.length := hinv.1 0 h0
  have hspec := find_leaf_loop_is_leaf nodes xi rank hinv nodes.length 0 h0 hrank0
  refine ⟨hspec.1, hspec.2, ?_, ?_⟩
  · intro fuel hf
    exact find_leaf_loop_stable nodes xi rank hinv fuel nodes.length 0 h0
      (lt_of_lt_of_le hrank0 hf) hrank0
  · intro fuel idx hleaf
    rw [find_leaf_loop_succ,
      if_neg (by simp only [hleaf]; exact Bool.false_ne_true)]

/-- A concrete three-node tree built through `add_node_tree`: a root split on
feature 0 with bin threshold 5 and two leaf children (spec section 8's
concrete tree scenario). -/
def exampleTree : TreeClassifier :=
  build_tree (freshTreeClassifier 1 2)
    [{ (default : AddNodeArgs) with
        is_leaf := false, feature := 0, bin_threshold := 5 },
     { (default : AddNodeArgs) with
        parent := 0, is_left := true, is_leaf := true },
     { (default : AddNodeArgs) with
        parent := 0, is_left := false, is_leaf := true }]

/-- Witness for claim C6 at a concrete input: the three-node example tree
with rank function `fun i => 2 - i`, and a sample with bin code 3. -/
theorem claim_C6_witness :
    (0 < exampleTree.nodes.length ∧
      ChildInv exampleTree.nodes (fun i => 2 - i)) ∧
    (exampleTree.nodes.getD (find_leaf exampleTree.nodes [3])
        default).is_leaf = true := by
  refine ⟨⟨by decide, ?_⟩, ?_⟩
  · unfold ChildInv
    decide
  · exact (claim_C6 exampleTree.nodes [3] (fun i => 2 - i) (by decide)
      (by unfold ChildInv; decide)).1

/-! The aggregated prediction as a fold over the ancestor chain (claim C1). -/

/-- Parents precede children in the arena: every non-root node's parent field
is a non-negative index strictly below the node's own index (spec section 3:
node 0 is the root and children are appended after their parent). -/
def ParentInv (nodes : List NodeRec) : Prop :=
  ∀ i, i < nodes.length → i ≠ 0 →
    0 ≤ (nodes.getD i default).parent ∧
    ((nodes.getD i default).parent).toNat < i

/-- A finished tree: training has overwritten every `log_weight_tree` with a
finite value (no NaN left). -/
def FiniteWeights (nodes : List NodeRec) : Prop :=
  ∀ i, i < nodes.length → (nodes.getD i default).log_weight_tree ≠ none

theorem agg_loop_reg_eq_fold (e : ℚ → ℚ) (step : ℚ) (nodes : List NodeRec)
    (y_pred : List ℚ) :
    ∀ fuel idx p, agg_loop_reg e step nodes y_pred fuel idx p
      = (ancestor_chain nodes fuel idx).foldl
          (fun q a =>
            ctw_combine e step (nodes.getD a default) (y_pred.getD a 0) q) p := by
  intro fuel
  induction fuel with
  | zero => intro idx p; rfl
  | succ f ih =>
    intro idx p
    by_cases h : idx = 0
    · simp [agg_loop_reg, ancestor_chain, h]
    · simp only [agg_loop_reg, ancestor_chain, h, if_false, List.foldl_cons]
      exact ih _ _

theorem agg_loop_clf_eq_fold (e : ℚ → ℚ) (step : ℚ) (nodes : List NodeRec)
    (y_pred : List (List ℚ)) :
    ∀ fuel idx p, agg_loop_clf e step nodes y_pred fuel idx p
      = (ancestor_chain nodes fuel idx).foldl
          (fun q a =>
            ctw_combine_vec e step (nodes.getD a default)
              (y_pred.getD a []) q) p := by
  intro fuel
  induction fuel with
  | zero => intro idx p; rfl
  | succ f ih =>
    intro idx p
    by_cases h : idx = 0
    · simp [agg_loop_clf, ancestor_chain, h]
    · simp only [agg_loop_clf, ancestor_chain, h, if_false, List.foldl_cons]
      exact ih _ _

theorem ancestor_chain_mem_lt (nodes : List NodeRec) (hp : ParentInv nodes) :
    ∀ fuel idx, idx < nodes.length →
      ∀ a ∈ ancestor_chain nodes fuel idx, a < idx := by
  intro fuel
  induction fuel with
  | zero => intro idx h a ha; simp [ancestor_chain] at ha
  | succ f ih =>
    intro idx h a ha
    by_cases h0 : idx = 0
    · simp [ancestor_chain, h0] at ha
    · simp only [ancestor_chain, h0, if_false, List.mem_cons] at ha
      have hpar := hp idx h h0
      rcases ha with rfl | ha
      · exact hpar.2
      · exact lt_trans (ih _ (lt_trans hpar.2 h) a ha) hpar.2

theorem ancestor_chain_stable (nodes : List NodeRec) (hp : ParentInv nodes) :
    ∀ idx, idx < nodes.length → ∀ fuel, idx ≤ fuel →
      ancestor_chain nodes fuel idx = ancestor_chain nodes idx idx := by
  intro idx
  induction idx using Nat.strong_induction_on with
  | _ idx ih =>
    intro hlen fuel hfuel
    by_cases h0 : idx = 0
    · subst h0
      cases fuel <;> simp [ancestor_chain]
    · cases fuel with
      | zero => omega
      | succ f =>
        obtain ⟨i, rfl⟩ : ∃ i, idx = i + 1 := ⟨idx - 1, by omega⟩
        have hpar := hp (i + 1) hlen h0
        simp only [ancestor_chain, h0, if_false]
        have hj := hpar.2
        rw [ih ((nodes.getD (i + 1) default).parent).toNat (by omega)
            (by omega) f (by omega),
          ih ((nodes.getD (i + 1) default).parent).toNat (by omega)
            (by omega) i (by omega)]

theorem ancestor_chain_last (nodes : List NodeRec) (hp : ParentInv nodes) :
    ∀ idx, idx < nodes.length → idx ≠ 0 → ∀ fuel, idx ≤ fuel →
      (ancestor_chain nodes fuel idx).getLast? = some 0 := by
  intro idx
  induction idx using Nat.strong_induction_on with
  | _ idx ih =>
    intro hlen h0 fuel hfuel
    cases fuel with
    | zero => omega
    | succ f =>
      have hpar := hp idx hlen h0
      simp only [ancestor_chain, h0, if_false]
      by_cases hj0 : ((nodes.getD idx default).parent).toNat = 0
      · rw [hj0]
        cases f <;> simp [ancestor_chain]
      · have hrec := ih ((nodes.getD idx default).parent).toNat hpar.2
          (lt_trans hpar.2 hlen) hj0 f (by omega)
        rcases hch : ancestor_chain nodes f
            ((nodes.getD idx default).parent).toNat with _ | ⟨x, xs⟩
        · rw [hch] at hrec
          simp at hrec
        · rw [hch] at hrec
          rw [List.getLast?_cons_cons]
          exact hrec

theorem foldl_ctw_reg_some (e : ℚ → ℚ) (step : ℚ) (nodes : List NodeRec)
    (y_pred : List ℚ) (hf : FiniteWeights nodes) :
    ∀ chain : List ℕ, (∀ a ∈ chain, a < nodes.length) → ∀ v : ℚ,
      chain.foldl
        (fun q a =>
          ctw_combine e step (nodes.getD a default) (y_pred.getD a 0) q)
        (some v)
      = some (spec_aggregate_reg e step nodes y_pred chain v) := by
  intro chain
  induction chain with
  | nil => intro h v; rfl
  | cons a l ih =>
    intro h v
    have ha : a < nodes.length := h a (List.mem_cons_self a l)
    obtain ⟨w, hw⟩ : ∃ w, (nodes.getD a default).log_weight_tree = some w :=
      Option.ne_none_iff_exists'.mp (hf a ha)
    have hstep : ctw_combine e step (nodes.getD a default) (y_pred.getD a 0)
        (some v)
        = some (spec_combine e step (nodes.getD a default)
            (y_pred.getD a 0) v) := by
      simp only [ctw_combine, spec_combine, hw, Option.getD_some]
    simp only [List.foldl_cons, hstep, spec_aggregate_reg]
    exact ih (fun b hb => h b (List.mem_cons_of_mem a hb)) _

theorem foldl_ctw_clf_some (e : ℚ → ℚ) (step : ℚ) (nodes : List NodeRec)
    (y_pred : List (List ℚ)) (hf : FiniteWeights nodes) :
    ∀ chain : List ℕ, (∀ a ∈ chain, a < nodes.length) → ∀ v : List ℚ,
      chain.foldl
        (fun q a =>
          ctw_combine_vec e step (nodes.getD a default) (y_pred.getD a []) q)
        (some v)
      = some (spec_aggregate_clf e step nodes y_pred chain v) := by
  intro chain
  induction chain with
  | nil => intro h v; rfl
  | cons a l ih =>
    intro h v
    have ha : a < nodes.length := h a (List.mem_cons_self a l)
    obtain ⟨w, hw⟩ : ∃ w, (nodes.getD a default).log_weight_tree = some w :=
      Option.ne_none_iff_exists'.mp (hf a ha)
    have hstep : ctw_combine_vec e step (nodes.getD a default)
        (y_pred.getD a []) (some v)
        = some (spec_combine_vec e step (nodes.getD a default)
            (y_pred.getD a []) v) := by
      simp only [ctw_combine_vec, spec_combine_vec, hw, Option.getD_some]
    simp only [List.foldl_cons, hstep, spec_aggregate_clf]
    exact ih (fun b hb => h b (List.mem_cons_of_mem a hb)) _

/-- Claim C1: on a finished tree (structural invariants, parents preceding
children, finite aggregation weights), the aggregation-enabled prediction of
each row equals the specification fold: start from the stored prediction of
the leaf returned by `find_leaf` and, at each ancestor from the leaf's parent
up to the root in that order, replace `P` by `alpha * V_a + (1 - alpha) * P`
with `alpha = 0.5 * exp(-step * loss_valid(a) - log_weight_tree(a))` — for
the regressor (scalar) and the classifier (per-class vector); moreover the
walked ancestor chain terminates at the root (its last element is index 0)
and is independent of the loop fuel once sufficient. -/
theorem claim_C1 (e : ℚ → ℚ) (step : ℚ) (tr : TreeRegressor)
    (tc : TreeClassifier) (X : List (List ℕ)) (rankR rankC : ℕ → ℕ)
    (hr0 : 0 < tr.nodes.length) (hrinv : ChildInv tr.nodes rankR)
    (hrp : ParentInv tr.nodes) (hrf : FiniteWeights tr.nodes)
    (hc0 : 0 < tc.nodes.length) (hcinv : ChildInv tc.nodes rankC)
    (hcp : ParentInv tc.nodes) (hcf : FiniteWeights tc.nodes) :
    tree_regressor_predict e tr X true step
      = X.map (fun xi =>
          some (spec_aggregate_reg e step tr.nodes tr.y_pred
            (ancestor_chain tr.nodes tr.nodes.length (find_leaf tr.nodes xi))
            (tr.y_pred.getD (find_leaf tr.nodes xi) 0))) ∧
    tree_classifier_predict_proba e tc X true step
      = X.map (fun xi =>
          some (spec_aggregate_clf e step tc.nodes tc.y_pred
            (ancestor_chain tc.nodes tc.nodes.length (find_leaf tc.nodes xi))
            (tc.y_pred.getD (find_leaf tc.nodes xi)
              (List.replicate tc.n_classes 0)))) ∧
    (∀ xi : List ℕ, find_leaf tr.nodes xi ≠ 0 →
      (ancestor_chain tr.nodes tr.nodes.length
          (find_leaf tr.nodes xi)).getLast? = some 0) ∧
    (∀ xi : List ℕ, find_leaf tc.nodes xi ≠ 0 →
      (ancestor_chain tc.nodes tc.nodes.length
          (find_leaf tc.nodes xi)).getLast? = some 0) ∧
    (∀ (xi : List ℕ) (fuel : ℕ), tr.nodes.length ≤ fuel →
      ancestor_chain tr.nodes fuel (find_leaf tr.nodes xi)
        = ancestor_chain tr.nodes tr.nodes.length (find_leaf tr.nodes xi)) := by
  have hrleaf : ∀ xi : List ℕ, find_leaf tr.nodes xi < tr.nodes.length :=
    fun xi => (find_leaf_loop_is_leaf tr.nodes xi rankR hrinv tr.nodes.length
      0 hr0 (hrinv.1 0 hr0)).2
  have hcleaf : ∀ xi : List ℕ, find_leaf tc.nodes xi < tc.nodes.length :=
    fun xi => (find_leaf_loop_is_leaf tc.nodes xi rankC hcinv tc.nodes.length
      0 hc0 (hcinv.1 0 hc0)).2
  refine ⟨?_, ?_, ?_, ?_, ?_⟩
  · unfold tree_regressor_predict
    apply List.map_congr_left
    intro xi _
    simp only [if_true]
    rw [agg_loop_reg_eq_fold]
    exact foldl_ctw_reg_some e step tr.nodes tr.y_pred hrf _
      (fun a ha => lt_trans
        (ancestor_chain_mem_lt tr.nodes hrp _ _ (hrleaf xi) a ha)
        (hrleaf xi)) _
  · unfold tree_classifier_predict_proba
    apply List.map_congr_left
    intro xi _
    simp only [if_true]
    rw [agg_loop_clf_eq_fold]
    exact foldl_ctw_clf_some e step tc.nodes tc.y_pred hcf _
      (fun a ha => lt_trans
        (ancestor_chain_mem_lt tc.nodes hcp _ _ (hcleaf xi) a ha)
        (hcleaf xi)) _
  · intro xi h0
    exact ancestor_chain_last tr.nodes hrp _ (hrleaf xi) h0 _
      (le_of_lt (hrleaf xi))
  · intro xi h0
    exact ancestor_chain_last tc.nodes hcp _ (hcleaf xi) h0 _
      (le_of_lt (hcleaf xi))
  · intro xi fuel hfuel
    rw [ancestor_chain_stable tr.nodes hrp _ (hrleaf xi) fuel
        (le_trans (le_of_lt (hrleaf xi)) hfuel),
      ancestor_chain_stable tr.nodes hrp _ (hrleaf xi) tr.nodes.length
        (le_of_lt (hrleaf xi))]

/-- The example tree as a finished classifier: every `log_weight_tree`
overwritten with a finite value and class-probability predictions filled
in. -/
def exampleTreeFin : TreeClassifier :=
  { exampleTree with
      y_pred := [[1 / 2, 1 / 2], [1, 0], [0, 1]],
      nodes := exampleTree.nodes.map
        (fun n => { n with log_weight_tree := some 0 }) }

/-- The same finished arena viewed as a regressor with scalar predictions. -/
def exampleTreeRegFin : TreeRegressor :=
  { n_features := 1, node_count := 3, capacity := 3,
    nodes := exampleTreeFin.nodes, y_pred := [1 / 2, 1 / 5, 4 / 5] }

/-- Witness for claim C1 at a concrete input: the finished three-node
example trees, rank `fun i => 2 - i`, sample `[3]`, step 1. -/
theorem claim_C1_witness :
    (0 < exampleTreeRegFin.nodes.length ∧
      ChildInv exampleTreeRegFin.nodes (fun i => 2 - i) ∧
      ParentInv exampleTreeRegFin.nodes ∧
      FiniteWeights exampleTreeRegFin.nodes ∧
      0 < exampleTreeFin.nodes.length ∧
      ChildInv exampleTreeFin.nodes (fun i => 2 - i) ∧
      ParentInv exampleTreeFin.nodes ∧
      FiniteWeights exampleTreeFin.nodes) ∧
    tree_regressor_predict id exampleTreeRegFin [[3]] true 1
      = [some (spec_aggregate_reg id 1 exampleTreeRegFin.nodes
          exampleTreeRegFin.y_pred
          (ancestor_chain exampleTreeRegFin.nodes
            exampleTreeRegFin.nodes.length
            (find_leaf exampleTreeRegFin.nodes [3]))
          (exampleTreeRegFin.y_pred.getD
            (find_leaf exampleTreeRegFin.nodes [3]) 0))] := by
  refine ⟨⟨by decide, by unfold ChildInv; decide, by unfold ParentInv; decide,
    by unfold FiniteWeights; decide, by decide, by unfold ChildInv; decide,
    by unfold ParentInv; decide, by unfold FiniteWeights; decide⟩, ?_⟩
  have h := (claim_C1 id 1 exampleTreeRegFin exampleTreeFin [[3]]
    (fun i => 2 - i) (fun i => 2 - i)
    (by decide) (by unfold ChildInv; decide) (by unfold ParentInv; decide)
    (by unfold FiniteWeights; decide)
    (by decide) (by unfold ChildInv; decide) (by unfold ParentInv; decide)
    (by unfold FiniteWeights; decide)).1
  simpa using h

/-! NaN propagation through the aggregation walk (claim C9). -/

theorem ctw_combine_vec_none_right (e : ℚ → ℚ) (step : ℚ) (nd : NodeRec)
    (v : List ℚ) : ctw_combine_vec e step nd v none = none := by
  rcases h : nd.log_weight_tree with _ | w <;> simp [ctw_combine_vec, h]

theorem ctw_combine_vec_none_lwt (e : ℚ → ℚ) (step : ℚ) (nd : NodeRec)
    (v : List ℚ) (p : Option (List ℚ)) (h : nd.log_weight_tree = none) :
    ctw_combine_vec e step nd v p = none := by
  rcases p with _ | pv <;> simp [ctw_combine_vec, h]

theorem foldl_ctw_clf_none (e : ℚ → ℚ) (step : ℚ) (nodes : List NodeRec)
    (y_pred : List (List ℚ)) :
    ∀ chain : List ℕ,
      chain.foldl
        (fun q a =>
          ctw_combine_vec e step (nodes.getD a default) (y_pred.getD a []) q)
        none = none := by
  intro chain
  induction chain with
  | nil => rfl
  | cons a l ih =>
    rw [List.foldl_cons, ctw_combine_vec_none_right]
    exact ih

theorem foldl_ctw_clf_none_of_mem (e : ℚ → ℚ) (step : ℚ)
    (nodes : List NodeRec) (y_pred : List (List ℚ)) :
    ∀ (chain : List ℕ) (p : Option (List ℚ)),
      (∃ a ∈ chain, (nodes.getD a default).log_weight_tree = none) →
      chain.foldl
        (fun q a =>
          ctw_combine_vec e step (nodes.getD a default) (y_pred.getD a []) q)
        p = none := by
  intro chain
  induction chain with
  | nil =>
    intro p h
    simp at h
  | cons a l ih =>
    intro p h
    rcases h with ⟨b, hb, hlwt⟩
    rcases List.mem_cons.mp hb with rfl | hbl
    · rw [List.foldl_cons, ctw_combine_vec_none_lwt e step _ _ _ hlwt]
      exact foldl_ctw_clf_none e step nodes y_pred l
    · rw [List.foldl_cons]
      exact ih _ ⟨b, hbl, hlwt⟩

/-- Claim C9: `add_node_tree` writes NaN (modelled by `none`) into the new
node's `log_weight_tree` for every combination of arguments — the operation
takes no `log_weight_tree` parameter — and an aggregation-enabled classifier
prediction whose ancestor walk passes through a node whose `log_weight_tree`
is still NaN evaluates `exp` of NaN and returns NaN for that row. -/
theorem claim_C9 (t : TreeClassifier) (a : AddNodeArgs)
    (hlen : t.nodes.length = t.capacity) (hcnt : t.node_count ≤ t.capacity)
    (e : ℚ → ℚ) (step : ℚ) (tc : TreeClassifier) (xi : List ℕ)
    (hnan : ∃ aidx ∈ ancestor_chain tc.nodes tc.nodes.length
        (find_leaf tc.nodes xi),
      (tc.nodes.getD aidx default).log_weight_tree = none) :
    ((add_node_tree t a).1.nodes.getD t.node_count default).log_weight_tree
        = none ∧
    tree_classifier_predict_proba e tc [xi] true step = [none] := by
  refine ⟨(add_node_tree_new_node t a hlen hcnt).1, ?_⟩
  unfold tree_classifier_predict_proba
  simp only [List.map_cons, List.map_nil, if_true]
  rw [agg_loop_clf_eq_fold, foldl_ctw_clf_none_of_mem e step tc.nodes
    tc.y_pred _ _ hnan]

/-- Witness for claim C9 at a concrete input: appending to a fresh tree, and
predicting through the freshly built example tree, whose nodes all still
carry the NaN written at append time. -/
theorem claim_C9_witness :
    ((freshTreeClassifier 1 2).nodes.length
        = (freshTreeClassifier 1 2).capacity ∧
      (freshTreeClassifier 1 2).node_count
        ≤ (freshTreeClassifier 1 2).capacity ∧
      (∃ aidx ∈ ancestor_chain exampleTree.nodes exampleTree.nodes.length
          (find_leaf exampleTree.nodes [3]),
        (exampleTree.nodes.getD aidx default).log_weight_tree = none)) ∧
    tree_classifier_predict_proba id exampleTree [[3]] true 1 = [none] := by
  refine ⟨⟨rfl, Nat.le_refl 0, by decide⟩, ?_⟩
  exact (claim_C9 (freshTreeClassifier 1 2) default rfl (Nat.le_refl 0)
    id 1 exampleTree [3] (by decide)).2

/-! Concrete Gini scenario (claim C8). -/

/-- A freshly constructed `Gini(1, [2])` criterion (one output, two classes);
the statistics arrays start uninitialized (`np.empty`), modelled by zeros,
and are fully overwritten by `init`. -/
def gini_example_base : ClfCriterion :=
  { y := fun _ _ => 0, sample_weight := [], samples := id,
    start := 0, pos := 0, endp := 0, n_outputs := 1, n_node_samples := 0,
    n_classes := fun _ => 2, weighted_n_samples := 0,
    weighted_n_node_samples := 0, weighted_n_left := 0,
    weighted_n_right := 0, sum_total := fun _ _ => 0,
    sum_left := fun _ _ => 0, sum_right := fun _ _ => 0 }

/-- The scenario's targets: four samples with labels `[0, 0, 1, 1]`. -/
def gini_example_y : ℕ → ℕ → ℕ := fun i _ => if i < 2 then 0 else 1

/-- The criterion after `init(y, [], 4.0, identity sample order, 0, 4)`. -/
def gini_example_init : ClfCriterion :=
  classification_criterion_init gini_example_base gini_example_y [] 4 id 0 4

/-- The criterion after the subsequent `update(2)`. -/
def gini_example_split : ClfCriterion :=
  criterion_update gini_example_init 2

/-- Claim C8: on the concrete Gini scenario (one output, two classes, four
uniformly weighted samples with labels `[0,0,1,1]` in sample order),
`init(0, 4)` yields `sum_total = [2, 2]`, `weighted_n_node_samples = 4` and
`node_impurity = 1/2`; after `update(2)`, `sum_left = [2, 0]`,
`sum_right = [0, 2]`, `children_impurity = (0, 0)` and
`proxy_impurity_improvement = 0`. -/
theorem claim_C8 :
    gini_example_init.sum_total 0 0 = 2 ∧
    gini_example_init.sum_total 0 1 = 2 ∧
    gini_example_init.weighted_n_node_samples = 4 ∧
    gini_node_impurity gini_example_init = 1 / 2 ∧
    gini_example_split.sum_left 0 0 = 2 ∧
    gini_example_split.sum_left 0 1 = 0 ∧
    gini_example_split.sum_right 0 0 = 0 ∧
    gini_example_split.sum_right 0 1 = 2 ∧
    gini_children_impurity gini_example_split = (0, 0) ∧
    criterion_proxy_impurity_improvement gini_example_split = 0 := by
  norm_num [gini_example_init, gini_example_split, gini_example_base,
    gini_example_y, classification_criterion_init, init_base,
    criterion_reset,
    criterion_update, update_finalize, criterion_reverse_reset, init_step,
    update_forward_step, update_backward_step, usub64, weight_of, add_sample,
    bump, gini_node_impurity, gini_children_impurity,
    criterion_proxy_impurity_improvement, List.range',
    List.range_succ, List.range_zero]

/-! Conservation (claim C4). -/

/-- The cursor-moving operations the splitter may call after `init`. -/
inductive CritOp where
  | reset : CritOp
  | reverse_reset : CritOp
  | update : ℕ → CritOp

/-- Apply one operation to a criterion state. -/
def apply_op (c : ClfCriterion) : CritOp → ClfCriterion
  | CritOp.reset => criterion_reset c
  | CritOp.reverse_reset => criterion_reverse_reset c
  | CritOp.update p => criterion_update c p

/-- Apply a sequence of operations left to right. -/
def apply_ops (c : ClfCriterion) (ops : List CritOp) : ClfCriterion :=
  ops.foldl apply_op c

/-- The conservation identities of spec section 8: left plus right equals
total, entrywise and for the weighted counts. -/
def Conserves (c : ClfCriterion) : Prop :=
  (∀ k cls, c.sum_left k cls + c.sum_right k cls = c.sum_total k cls) ∧
  c.weighted_n_left + c.weighted_n_right = c.weighted_n_node_samples

/-- An operation with in-range position (for `update`). -/
def op_in_range (start endp : ℕ) : CritOp → Prop
  | CritOp.update p => start ≤ p ∧ p ≤ endp
  | _ => True

theorem conserves_reset (c : ClfCriterion) : Conserves (criterion_reset c) := by
  refine ⟨fun k cls => ?_, ?_⟩ <;> simp [criterion_reset]

theorem conserves_reverse_reset (c : ClfCriterion) :
    Conserves (criterion_reverse_reset c) := by
  refine ⟨fun k cls => ?_, ?_⟩ <;> simp [criterion_reverse_reset]

theorem conserves_update (c : ClfCriterion) (p : ℕ) :
    Conserves (criterion_update c p) := by
  refine ⟨fun k cls => ?_, ?_⟩ <;>
    (dsimp only [criterion_update, update_finalize, Conserves]; ring)

theorem conserves_apply_op (c : ClfCriterion) (op : CritOp) :
    Conserves (apply_op c op) := by
  cases op with
  | reset => exact conserves_reset c
  | reverse_reset => exact conserves_reverse_reset c
  | update p => exact conserves_update c p

theorem conserves_apply_ops (ops : List CritOp) :
    ∀ c : ClfCriterion, Conserves c → Conserves (apply_ops c ops) := by
  induction ops with
  | nil => intro c h; exact h
  | cons op l ih =>
    intro c h
    exact ih (apply_op c op) (conserves_apply_op c op)

/-- Claim C4: after `init` and after every subsequent sequence of `reset`,
`reverse_reset` and `update` calls with in-range positions,
`sum_left + sum_right = sum_total` holds entrywise and
`weighted_n_left + weighted_n_right = weighted_n_node_samples`. -/
theorem claim_C4 (c0 : ClfCriterion) (y : ℕ → ℕ → ℕ) (sw : List ℚ) (wns : ℚ)
    (samples : ℕ → ℕ) (start endp : ℕ) (ops : List CritOp)
    (hops : ∀ op ∈ ops, op_in_range start endp op) :
    Conserves (apply_ops
      (classification_criterion_init c0 y sw wns samples start endp) ops) :=
  conserves_apply_ops ops _ (conserves_reset _)

/-- Witness for claim C4 at a concrete input: the Gini scenario criterion
with an in-range `update(2)`. -/
theorem claim_C4_witness :
    (∀ op ∈ [CritOp.update 2], op_in_range 0 4 op) ∧
    Conserves (apply_ops
      (classification_criterion_init gini_example_base gini_example_y [] 4
        id 0 4) [CritOp.update 2]) := by
  have hops : ∀ op ∈ [CritOp.update 2], op_in_range 0 4 op := by
    intro op hop
    rcases List.mem_singleton.mp hop with rfl
    exact ⟨Nat.zero_le 2, by norm_num⟩
  exact ⟨hops, claim_C4 gini_example_base gini_example_y [] 4 id 0 4
    [CritOp.update 2] hops⟩

/-! Proxy versus true impurity improvement (claim C7). -/

theorem impurity_improvement_decomp (c : ClfCriterion) (parent il ir : ℚ)
    (hn : 0 < c.weighted_n_node_samples) (hs : 0 < c.weighted_n_samples) :
    criterion_impurity_improvement c parent il ir
      = (c.weighted_n_node_samples / c.weighted_n_samples) * parent
        + (-c.weighted_n_right * ir - c.weighted_n_left * il)
          / c.weighted_n_samples := by
  unfold criterion_impurity_improvement
  field_simp
  ring

/-- Claim C7: for one initialized node (shared `sum_total`,
`weighted_n_node_samples`, `weighted_n_samples`, the latter positive) and any
two candidate split states with positive child weights, the true impurity
improvement equals the split-independent constant
`(weighted_n_node_samples / weighted_n_samples) * parent_impurity` plus the
proxy divided by `weighted_n_samples`; hence the proxy ranks the two
candidates exactly as the true improvement does. -/
theorem claim_C7 (A B : ClfCriterion) (parent : ℚ)
    (hst : A.sum_total = B.sum_total)
    (hnn : A.weighted_n_node_samples = B.weighted_n_node_samples)
    (hns : A.weighted_n_samples = B.weighted_n_samples)
    (hAl : 0 < A.weighted_n_left) (hAr : 0 < A.weighted_n_right)
    (hBl : 0 < B.weighted_n_left) (hBr : 0 < B.weighted_n_right)
    (hAc : A.weighted_n_left + A.weighted_n_right
        = A.weighted_n_node_samples)
    (hBc : B.weighted_n_left + B.weighted_n_right
        = B.weighted_n_node_samples)
    (hwns : 0 < A.weighted_n_samples) :
    (criterion_impurity_improvement A parent (gini_children_impurity A).1
        (gini_children_impurity A).2
      = (A.weighted_n_node_samples / A.weighted_n_samples) * parent
        + criterion_proxy_impurity_improvement A / A.weighted_n_samples) ∧
    (criterion_proxy_impurity_improvement B
        ≤ criterion_proxy_impurity_improvement A
      ↔ criterion_impurity_improvement B parent (gini_children_impurity B).1
            (gini_children_impurity B).2
          ≤ criterion_impurity_improvement A parent
              (gini_children_impurity A).1 (gini_children_impurity A).2) := by
  have hAn : 0 < A.weighted_n_node_samples := by rw [← hAc]; positivity
  have hBn : 0 < B.weighted_n_node_samples := by rw [← hBc]; positivity
  have hBs : 0 < B.weighted_n_samples := by rw [← hns]; exact hwns
  have hproxyA : criterion_proxy_impurity_improvement A
      = -A.weighted_n_right * (gini_children_impurity A).2
        - A.weighted_n_left * (gini_children_impurity A).1 := rfl
  have hproxyB : criterion_proxy_impurity_improvement B
      = -B.weighted_n_right * (gini_children_impurity B).2
        - B.weighted_n_left * (gini_children_impurity B).1 := rfl
  have hdecompA := impurity_improvement_decomp A parent
    (gini_children_impurity A).1 (gini_children_impurity A).2 hAn hwns
  have hdecompB := impurity_improvement_decomp B parent
    (gini_children_impurity B).1 (gini_children_impurity B).2 hBn hBs
  constructor
  · rw [hdecompA, hproxyA]
  · rw [hdecompA, hdecompB, hproxyA, hproxyB, ← hnn, ← hns]
    constructor
    · intro h
      exact add_le_add_left ((div_le_div_iff_of_pos_right hwns).mpr h) _
    · intro h
      have h2 := (add_le_add_iff_left
        ((A.weighted_n_node_samples / A.weighted_n_samples) * parent)).mp h
      exact (div_le_div_iff_of_pos_right hwns).mp h2

/-- Witness for claim C7 at a concrete input: the Gini scenario state after
`update(2)` taken as both candidate states. -/
theorem claim_C7_witness :
    (gini_example_split.sum_total = gini_example_split.sum_total ∧
      0 < gini_example_split.weighted_n_left ∧
      0 < gini_example_split.weighted_n_right ∧
      gini_example_split.weighted_n_left + gini_example_split.weighted_n_right
        = gini_example_split.weighted_n_node_samples ∧
      0 < gini_example_split.weighted_n_samples) ∧
    criterion_impurity_improvement gini_example_split (1 / 2)
        (gini_children_impurity gini_example_split).1
        (gini_children_impurity gini_example_split).2
      = (gini_example_split.weighted_n_node_samples
            / gini_example_split.weighted_n_samples) * (1 / 2)
        + criterion_proxy_impurity_improvement gini_example_split
            / gini_example_split.weighted_n_samples := by
  have hl : gini_example_split.weighted_n_left = 2 := by
    norm_num [gini_example_init, gini_example_split, gini_example_base,
      gini_example_y, classification_criterion_init, init_base,
      criterion_reset,
      criterion_update, update_finalize, criterion_reverse_reset, init_step,
      update_forward_step, update_backward_step, usub64, weight_of,
      add_sample, bump, List.range', List.range_succ, List.range_zero]
  have hr : gini_example_split.weighted_n_right = 2 := by
    norm_num [gini_example_init, gini_example_split, gini_example_base,
      gini_example_y, classification_criterion_init, init_base,
      criterion_reset,
      criterion_update, update_finalize, criterion_reverse_reset, init_step,
      update_forward_step, update_backward_step, usub64, weight_of,
      add_sample, bump, List.range', List.range_succ, List.range_zero]
  have hn : gini_example_split.weighted_n_node_samples = 4 := by
    norm_num [gini_example_init, gini_example_split, gini_example_base,
      gini_example_y, classification_criterion_init, init_base,
      criterion_reset,
      criterion_update, update_finalize, criterion_reverse_reset, init_step,
      update_forward_step, update_backward_step, usub64, weight_of,
      add_sample, bump, List.range', List.range_succ, List.range_zero]
  have hs : gini_example_split.weighted_n_samples = 4 := by
    norm_num [gini_example_init, gini_example_split, gini_example_base,
      gini_example_y, classification_criterion_init, init_base,
      criterion_reset,
      criterion_update, update_finalize, criterion_reverse_reset, init_step,
      update_forward_step, update_backward_step, usub64, weight_of,
      add_sample, bump, List.range', List.range_succ, List.range_zero]
  refine ⟨⟨rfl, by rw [hl]; norm_num, by rw [hr]; norm_num,
    by rw [hl, hr, hn]; norm_num, by rw [hs]; norm_num⟩, ?_⟩
  exact (claim_C7 gini_example_split gini_example_split (1 / 2) rfl rfl rfl
    (by rw [hl]; norm_num) (by rw [hr]; norm_num)
    (by rw [hl]; norm_num) (by rw [hr]; norm_num)
    (by rw [hl, hr, hn]; norm_num) (by rw [hl, hr, hn]; norm_num)
    (by rw [hs]; norm_num)).1

/-! Update coherence (claim C3). -/

theorem usub64_of_le (a b : ℕ) (h : b ≤ a) (ha : a < 2 ^ 64) :
    usub64 a b = a - b := by
  unfold usub64
  omega

theorem usub64_of_gt (a b : ℕ) (h : a < b) (hb : b < 2 ^ 64) :
    usub64 a b = 2 ^ 64 - (b - a) := by
  unfold usub64
  omega

/-- Weighted count of the samples at positions `[a, b)` whose label for
output `k` is class `cls` (the closed form of the incremental sums). -/
def range_class_sum (y : ℕ → ℕ → ℕ) (samples : ℕ → ℕ) (sw : List ℚ)
    (a b k cls : ℕ) : ℚ :=
  ((List.range' a (b - a)).map
    (fun p => if y (samples p) k = cls then weight_of sw (samples p)
      else 0)).sum

/-- Total weight of the samples at positions `[a, b)`. -/
def range_weight_sum (samples : ℕ → ℕ) (sw : List ℚ) (a b : ℕ) : ℚ :=
  ((List.range' a (b - a)).map (fun p => weight_of sw (samples p))).sum

theorem range_class_sum_append (y : ℕ → ℕ → ℕ) (samples : ℕ → ℕ)
    (sw : List ℚ) (a b c k cls : ℕ) (hab : a ≤ b) (hbc : b ≤ c) :
    range_class_sum y samples sw a b k cls
        + range_class_sum y samples sw b c k cls
      = range_class_sum y samples sw a c k cls := by
  unfold range_class_sum
  rw [← List.sum_append, ← List.map_append]
  have h1 : List.range' a (b - a) ++ List.range' b (c - b)
      = List.range' a (c - a) := by
    have := List.range'_append a (b - a) (c - b) 1
    simp only [one_mul] at this
    rw [show a + (b - a) = b by omega] at this
    rw [show c - b + (b - a) = c - a by omega] at this
    exact this
  rw [h1]

theorem range_weight_sum_append (samples : ℕ → ℕ) (sw : List ℚ)
    (a b c : ℕ) (hab : a ≤ b) (hbc : b ≤ c) :
    range_weight_sum samples sw a b + range_weight_sum samples sw b c
      = range_weight_sum samples sw a c := by
  unfold range_weight_sum
  rw [← List.sum_append, ← List.map_append]
  have h1 : List.range' a (b - a) ++ List.range' b (c - b)
      = List.range' a (c - a) := by
    have := List.range'_append a (b - a) (c - b) 1
    simp only [one_mul] at this
    rw [show a + (b - a) = b by omega] at this
    rw [show c - b + (b - a) = c - a by omega] at this
    exact this
  rw [h1]

theorem add_sample_apply (n_outputs : ℕ) (y : ℕ → ℕ → ℕ) (i : ℕ) (w : ℚ)
    (s : ℕ → ℕ → ℚ) (k cls : ℕ) :
    add_sample n_outputs y i w s k cls
      = s k cls + if k < n_outputs ∧ y i k = cls then w else 0 := by
  induction n_outputs with
  | zero => simp [add_sample]
  | succ n ih =>
    have hstep : add_sample (n + 1) y i w s
        = bump (add_sample n y i w s) n (y i n) w := by
      unfold add_sample
      rw [List.range_succ, List.foldl_append, List.foldl_cons, List.foldl_nil]
    rw [hstep]
    unfold bump
    by_cases h1 : k = n ∧ cls = y i n
    · obtain ⟨rfl, rfl⟩ := h1
      rw [if_pos ⟨rfl, rfl⟩, ih]
      have e1 : ¬(k < k ∧ y i k = y i k) := by omega
      rw [if_neg e1, if_pos ⟨Nat.lt_succ_self k, rfl⟩]
      ring
    · rw [if_neg h1, ih]
      rcases Nat.lt_trichotomy k n with hk | rfl | hk
      · have he1 : (k < n ∧ y i k = cls) ↔ (k < n + 1 ∧ y i k = cls) := by
          constructor
          · exact fun h => ⟨by omega, h.2⟩
          · exact fun h => ⟨hk, h.2⟩
        rw [if_congr he1 rfl rfl]
      · have hne : ¬(y i k = cls) := fun h => h1 ⟨rfl, h.symm⟩
        have e1 : ¬(k < k ∧ y i k = cls) := fun h => hne h.2
        have e2 : ¬(k < k + 1 ∧ y i k = cls) := fun h => hne h.2
        rw [if_neg e1, if_neg e2]
      · have e1 : ¬(k < n ∧ y i k = cls) := by omega
        have e2 : ¬(k < n + 1 ∧ y i k = cls) := by omega
        rw [if_neg e1, if_neg e2]

/-- The fields of the criterion that `reset`, `reverse_reset` and `update`
never touch. -/
def SameStatic (c d : ClfCriterion) : Prop :=
  d.y = c.y ∧ d.sample_weight = c.sample_weight ∧ d.samples = c.samples ∧
  d.start = c.start ∧ d.endp = c.endp ∧ d.n_outputs = c.n_outputs ∧
  d.n_classes = c.n_classes ∧ d.weighted_n_samples = c.weighted_n_samples ∧
  d.weighted_n_node_samples = c.weighted_n_node_samples ∧
  d.sum_total = c.sum_total

theorem sameStatic_refl (c : ClfCriterion) : SameStatic c c :=
  ⟨rfl, rfl, rfl, rfl, rfl, rfl, rfl, rfl, rfl, rfl⟩

theorem sameStatic_trans {a b c : ClfCriterion} (h1 : SameStatic a b)
    (h2 : SameStatic b c) : SameStatic a c := by
  obtain ⟨e1, e2, e3, e4, e5, e6, e7, e8, e9, e10⟩ := h1
  obtain ⟨f1, f2, f3, f4, f5, f6, f7, f8, f9, f10⟩ := h2
  exact ⟨f1.trans e1, f2.trans e2, f3.trans e3, f4.trans e4, f5.trans e5,
    f6.trans e6, f7.trans e7, f8.trans e8, f9.trans e9, f10.trans e10⟩

theorem update_forward_step_static (c : ClfCriterion) (p : ℕ) :
    SameStatic c (update_forward_step c p) :=
  ⟨rfl, rfl, rfl, rfl, rfl, rfl, rfl, rfl, rfl, rfl⟩

theorem update_forward_step_pos (c : ClfCriterion) (p : ℕ) :
    (update_forward_step c p).pos = c.pos := rfl

theorem update_forward_step_sum_right (c : ClfCriterion) (p : ℕ) :
    (update_forward_step c p).sum_right = c.sum_right := rfl

theorem update_forward_step_wnr (c : ClfCriterion) (p : ℕ) :
    (update_forward_step c p).weighted_n_right = c.weighted_n_right := rfl

theorem update_forward_step_sum_left (c : ClfCriterion) (p : ℕ) :
    (update_forward_step c p).sum_left
      = add_sample c.n_outputs c.y (c.samples p)
          (weight_of c.sample_weight (c.samples p)) c.sum_left := rfl

theorem update_forward_step_wnl (c : ClfCriterion) (p : ℕ) :
    (update_forward_step c p).weighted_n_left
      = c.weighted_n_left + weight_of c.sample_weight (c.samples p) := rfl

theorem foldl_forward_spec (l : List ℕ) :
    ∀ c : ClfCriterion,
      SameStatic c (l.foldl update_forward_step c) ∧
      (l.foldl update_forward_step c).pos = c.pos ∧
      (l.foldl update_forward_step c).sum_right = c.sum_right ∧
      (l.foldl update_forward_step c).weighted_n_right
        = c.weighted_n_right ∧
      (∀ k cls, (l.foldl update_forward_step c).sum_left k cls
        = c.sum_left k cls + (if k < c.n_outputs then
            (l.map (fun p => if c.y (c.samples p) k = cls
              then weight_of c.sample_weight (c.samples p) else 0)).sum
          else 0)) ∧
      (l.foldl update_forward_step c).weighted_n_left
        = c.weighted_n_left
          + (l.map (fun p => weight_of c.sample_weight (c.samples p))).sum := by
  induction l with
  | nil =>
    intro c
    refine ⟨sameStatic_refl c, rfl, rfl, rfl, fun k cls => ?_, by simp⟩
    simp
  | cons p l ih =>
    intro c
    rw [List.foldl_cons]
    obtain ⟨hst, hpos, hsr, hwr, hsl, hwl⟩ := ih (update_forward_step c p)
    obtain ⟨ey, esw, esam, _, _, eno, _, _, _, _⟩ :=
      update_forward_step_static c p
    refine ⟨sameStatic_trans (update_forward_step_static c p) hst,
      hpos.trans (update_forward_step_pos c p),
      hsr.trans (update_forward_step_sum_right c p),
      hwr.trans (update_forward_step_wnr c p), ?_, ?_⟩
    · intro k cls
      have h1 := hsl k cls
      rw [update_forward_step_sum_left, ey, esw, esam, eno,
        add_sample_apply] at h1
      rw [h1, List.map_cons, List.sum_cons]
      by_cases hk : k < c.n_outputs
      · have e1 : (k < c.n_outputs ∧ c.y (c.samples p) k = cls)
            ↔ c.y (c.samples p) k = cls := by
          constructor
          · exact fun h => h.2
          · exact fun h => ⟨hk, h⟩
        rw [if_congr e1 rfl rfl, if_pos hk, if_pos hk]
        ring
      · have e1 : ¬(k < c.n_outputs ∧ c.y (c.samples p) k = cls) :=
          fun h => hk h.1
        rw [if_neg e1, if_neg hk, if_neg hk]
        ring
    · rw [hwl, update_forward_step_wnl, esw, esam, List.map_cons,
        List.sum_cons]
      ring

theorem update_backward_step_static (c : ClfCriterion) (p : ℕ) :
    SameStatic c (update_backward_step c p) :=
  ⟨rfl, rfl, rfl, rfl, rfl, rfl, rfl, rfl, rfl, rfl⟩

theorem update_backward_step_pos (c : ClfCriterion) (p : ℕ) :
    (update_backward_step c p).pos = c.pos := rfl

theorem update_backward_step_sum_right (c : ClfCriterion) (p : ℕ) :
    (update_backward_step c p).sum_right = c.sum_right := rfl

theorem update_backward_step_wnr (c : ClfCriterion) (p : ℕ) :
    (update_backward_step c p).weighted_n_right = c.weighted_n_right := rfl

theorem update_backward_step_sum_left (c : ClfCriterion) (p : ℕ) :
    (update_backward_step c p).sum_left
      = add_sample c.n_outputs c.y (c.samples p)
          (-(weight_of c.sample_weight (c.samples p))) c.sum_left := rfl

theorem update_backward_step_wnl (c : ClfCriterion) (p : ℕ) :
    (update_backward_step c p).weighted_n_left
      = c.weighted_n_left - weight_of c.sample_weight (c.samples p) := rfl

theorem foldl_backward_spec (l : List ℕ) :
    ∀ c : ClfCriterion,
      SameStatic c (l.foldl update_backward_step c) ∧
      (l.foldl update_backward_step c).pos = c.pos ∧
      (l.foldl update_backward_step c).sum_right = c.sum_right ∧
      (l.foldl update_backward_step c).weighted_n_right
        = c.weighted_n_right ∧
      (∀ k cls, (l.foldl update_backward_step c).sum_left k cls
        = c.sum_left k cls - (if k < c.n_outputs then
            (l.map (fun p => if c.y (c.samples p) k = cls
              then weight_of c.sample_weight (c.samples p) else 0)).sum
          else 0)) ∧
      (l.foldl update_backward_step c).weighted_n_left
        = c.weighted_n_left
          - (l.map (fun p => weight_of c.sample_weight (c.samples p))).sum := by
  induction l with
  | nil =>
    intro c
    refine ⟨sameStatic_refl c, rfl, rfl, rfl, fun k cls => ?_, by simp⟩
    simp
  | cons p l ih =>
    intro c
    rw [List.foldl_cons]
    obtain ⟨hst, hpos, hsr, hwr, hsl, hwl⟩ := ih (update_backward_step c p)
    obtain ⟨ey, esw, esam, _, _, eno, _, _, _, _⟩ :=
      update_backward_step_static c p
    refine ⟨sameStatic_trans (update_backward_step_static c p) hst,
      hpos.trans (update_backward_step_pos c p),
      hsr.trans (update_backward_step_sum_right c p),
      hwr.trans (update_backward_step_wnr c p), ?_, ?_⟩
    · intro k cls
      have h1 := hsl k cls
      rw [update_backward_step_sum_left, ey, esw, esam, eno,
        add_sample_apply] at h1
      rw [h1, List.map_cons, List.sum_cons]
      by_cases hk : k < c.n_outputs
      · have e1 : (k < c.n_outputs ∧ c.y (c.samples p) k = cls)
            ↔ c.y (c.samples p) k = cls := by
          constructor
          · exact fun h => h.2
          · exact fun h => ⟨hk, h⟩
        rw [if_congr e1 rfl rfl, if_pos hk, if_pos hk]
        by_cases hcond : c.y (c.samples p) k = cls
        · rw [if_pos hcond, if_pos hcond]
          ring
        · rw [if_neg hcond, if_neg hcond]
          ring
      · have e1 : ¬(k < c.n_outputs ∧ c.y (c.samples p) k = cls) :=
          fun h => hk h.1
        rw [if_neg e1, if_neg hk, if_neg hk]
        ring
    · rw [hwl, update_backward_step_wnl, esw, esam, List.map_cons,
        List.sum_cons]
      ring

theorem init_step_fixed (c : ClfCriterion) (p : ℕ) :
    (init_step c p).y = c.y ∧
    (init_step c p).sample_weight = c.sample_weight ∧
    (init_step c p).samples = c.samples ∧
    (init_step c p).start = c.start ∧
    (init_step c p).endp = c.endp ∧
    (init_step c p).n_outputs = c.n_outputs ∧
    (init_step c p).n_classes = c.n_classes ∧
    (init_step c p).weighted_n_samples = c.weighted_n_samples :=
  ⟨rfl, rfl, rfl, rfl, rfl, rfl, rfl, rfl⟩

theorem init_step_sum_total (c : ClfCriterion) (p : ℕ) :
    (init_step c p).sum_total
      = add_sample c.n_outputs c.y (c.samples p)
          (weight_of c.sample_weight (c.samples p)) c.sum_total := rfl

theorem init_step_wnns (c : ClfCriterion) (p : ℕ) :
    (init_step c p).weighted_n_node_samples
      = c.weighted_n_node_samples
        + weight_of c.sample_weight (c.samples p) := rfl

theorem foldl_init_spec (l : List ℕ) :
    ∀ c : ClfCriterion,
      (l.foldl init_step c).y = c.y ∧
      (l.foldl init_step c).sample_weight = c.sample_weight ∧
      (l.foldl init_step c).samples = c.samples ∧
      (l.foldl init_step c).start = c.start ∧
      (l.foldl init_step c).endp = c.endp ∧
      (l.foldl init_step c).n_outputs = c.n_outputs ∧
      (l.foldl init_step c).weighted_n_samples = c.weighted_n_samples ∧
      (∀ k cls, (l.foldl init_step c).sum_total k cls
        = c.sum_total k cls + (if k < c.n_outputs then
            (l.map (fun p => if c.y (c.samples p) k = cls
              then weight_of c.sample_weight (c.samples p) else 0)).sum
          else 0)) ∧
      (l.foldl init_step c).weighted_n_node_samples
        = c.weighted_n_node_samples
          + (l.map (fun p => weight_of c.sample_weight (c.samples p))).sum := by
  induction l with
  | nil =>
    intro c
    refine ⟨rfl, rfl, rfl, rfl, rfl, rfl, rfl, fun k cls => ?_, by simp⟩
    simp
  | cons p l ih =>
    intro c
    rw [List.foldl_cons]
    obtain ⟨hy, hsw, hsam, hstart, hend, hno, hwns, hstot, hwnns⟩ :=
      ih (init_step c p)
    obtain ⟨ey, esw, esam, est, een, eno, _, ewns⟩ := init_step_fixed c p
    refine ⟨hy.trans ey, hsw.trans esw, hsam.trans esam, hstart.trans est,
      hend.trans een, hno.trans eno, hwns.trans ewns, ?_, ?_⟩
    · intro k cls
      have h1 := hstot k cls
      rw [init_step_sum_total, ey, esw, esam, eno, add_sample_apply] at h1
      rw [h1, List.map_cons, List.sum_cons]
      by_cases hk : k < c.n_outputs
      · have e1 : (k < c.n_outputs ∧ c.y (c.samples p) k = cls)
            ↔ c.y (c.samples p) k = cls := by
          constructor
          · exact fun h => h.2
          · exact fun h => ⟨hk, h⟩
        rw [if_congr e1 rfl rfl, if_pos hk, if_pos hk]
        ring
      · have e1 : ¬(k < c.n_outputs ∧ c.y (c.samples p) k = cls) :=
          fun h => hk h.1
        rw [if_neg e1, if_neg hk, if_neg hk]
        ring
    · rw [hwnns, init_step_wnns, esw, esam, List.map_cons, List.sum_cons]
      ring

/-- Coherence of a criterion state with its sample range: the cursor is
inside `[start, end]`, positions fit the machine range used by the branch
condition, and every statistic equals its closed form over the range
(`sum_left` over `[start, pos)`, `sum_total` over `[start, end)`, rows with
output index `≥ n_outputs` identically zero, right parts total minus
left). -/
structure Coherent (c : ClfCriterion) : Prop where
  pos_lb : c.start ≤ c.pos
  pos_ub : c.pos ≤ c.endp
  bound : c.endp < 2 ^ 63
  total : ∀ k cls, c.sum_total k cls
    = if k < c.n_outputs
      then range_class_sum c.y c.samples c.sample_weight c.start c.endp k cls
      else 0
  left : ∀ k cls, c.sum_left k cls
    = if k < c.n_outputs
      then range_class_sum c.y c.samples c.sample_weight c.start c.pos k cls
      else 0
  right : ∀ k cls, c.sum_right k cls = c.sum_total k cls - c.sum_left k cls
  wnns : c.weighted_n_node_samples
    = range_weight_sum c.samples c.sample_weight c.start c.endp
  wnl : c.weighted_n_left
    = range_weight_sum c.samples c.sample_weight c.start c.pos
  wnr : c.weighted_n_right
    = c.weighted_n_node_samples - c.weighted_n_left

theorem update_finalize_static (c1 : ClfCriterion) (np : ℕ) :
    SameStatic c1 (update_finalize c1 np) :=
  ⟨rfl, rfl, rfl, rfl, rfl, rfl, rfl, rfl, rfl, rfl⟩

theorem finalize_coherent (c c1 : ClfCriterion) (np : ℕ)
    (hst : SameStatic c c1) (hc : Coherent c)
    (h1 : c.start ≤ np) (h2 : np ≤ c.endp)
    (hl : ∀ k cls, c1.sum_left k cls
      = if k < c.n_outputs
        then range_class_sum c.y c.samples c.sample_weight c.start np k cls
        else 0)
    (hwl : c1.weighted_n_left
      = range_weight_sum c.samples c.sample_weight c.start np) :
    Coherent (update_finalize c1 np) ∧
    SameStatic c (update_finalize c1 np) ∧
    (update_finalize c1 np).pos = np := by
  have hst2 := hst
  obtain ⟨ey, esw, esam, est, een, eno, encl, ewns, ewnns, estot⟩ := hst2
  refine ⟨?_, sameStatic_trans hst (update_finalize_static c1 np), rfl⟩
  refine ⟨?_, ?_, ?_, ?_, ?_, ?_, ?_, ?_, ?_⟩
  · show c1.start ≤ np
    rw [est]
    exact h1
  · show np ≤ c1.endp
    rw [een]
    exact h2
  · show c1.endp < 2 ^ 63
    rw [een]
    exact hc.bound
  · intro k cls
    show c1.sum_total k cls
      = if k < c1.n_outputs
        then range_class_sum c1.y c1.samples c1.sample_weight c1.start
          c1.endp k cls
        else 0
    rw [estot, eno, ey, esam, esw, est, een]
    exact hc.total k cls
  · intro k cls
    show c1.sum_left k cls
      = if k < c1.n_outputs
        then range_class_sum c1.y c1.samples c1.sample_weight c1.start np
          k cls
        else 0
    rw [eno, ey, esam, esw, est]
    exact hl k cls
  · intro k cls
    exact rfl
  · show c1.weighted_n_node_samples
      = range_weight_sum c1.samples c1.sample_weight c1.start c1.endp
    rw [ewnns, esam, esw, est, een]
    exact hc.wnns
  · show c1.weighted_n_left
      = range_weight_sum c1.samples c1.sample_weight c1.start np
    rw [esam, esw, est]
    exact hwl
  · exact rfl

theorem reverse_reset_static (c : ClfCriterion) :
    SameStatic c (criterion_reverse_reset c) :=
  ⟨rfl, rfl, rfl, rfl, rfl, rfl, rfl, rfl, rfl, rfl⟩

theorem update_coherent (c : ClfCriterion) (hc : Coherent c) (np : ℕ)
    (h1 : c.start ≤ np) (h2 : np ≤ c.endp) :
    Coherent (criterion_update c np) ∧
    SameStatic c (criterion_update c np) ∧
    (criterion_update c np).pos = np := by
  have hpos_lt : c.pos < 2 ^ 64 := by
    have := hc.pos_ub
    have := hc.bound
    omega
  have hend_lt : c.endp < 2 ^ 64 := by
    have := hc.bound
    omega
  by_cases hbr : usub64 np c.pos ≤ usub64 c.endp np
  · -- forward branch: it implies pos ≤ np
    have hple : c.pos ≤ np := by
      by_contra hgt
      push_neg at hgt
      rw [usub64_of_gt np c.pos hgt hpos_lt,
        usub64_of_le c.endp np h2 hend_lt] at hbr
      have := hc.pos_ub
      have := hc.bound
      omega
    have heq : criterion_update c np
        = update_finalize
            ((List.range' c.pos (np - c.pos)).foldl update_forward_step c)
            np := by
      simp only [criterion_update]
      rw [if_pos hbr]
    obtain ⟨fst, fpos, fsr, fwr, fsl, fwl⟩ :=
      foldl_forward_spec (List.range' c.pos (np - c.pos)) c
    rw [heq]
    apply finalize_coherent c _ np fst hc h1 h2
    · intro k cls
      rw [fsl k cls, hc.left k cls]
      by_cases hk : k < c.n_outputs
      · rw [if_pos hk, if_pos hk, if_pos hk]
        exact range_class_sum_append c.y c.samples c.sample_weight c.start
          c.pos np k cls hc.pos_lb hple
      · rw [if_neg hk, if_neg hk, if_neg hk]
        ring
    · rw [fwl, hc.wnl]
      exact range_weight_sum_append c.samples c.sample_weight c.start c.pos
        np hc.pos_lb hple
  · -- backward branch
    have heq : criterion_update c np
        = update_finalize
            (((List.range' np (c.endp - np)).reverse).foldl
              update_backward_step (criterion_reverse_reset c))
            np := by
      simp only [criterion_update]
      rw [if_neg hbr]
    obtain ⟨bst, bpos, bsr, bwr, bsl, bwl⟩ :=
      foldl_backward_spec ((List.range' np (c.endp - np)).reverse)
        (criterion_reverse_reset c)
    obtain ⟨ry, rsw, rsam, rst, ren, rno, rncl, rwns, rwnns, rstot⟩ :=
      reverse_reset_static c
    have hsum_rev : ∀ k cls,
        (((List.range' np (c.endp - np)).reverse).map
          (fun p => if c.y (c.samples p) k = cls
            then weight_of c.sample_weight (c.samples p) else 0)).sum
        = range_class_sum c.y c.samples c.sample_weight np c.endp k cls := by
      intro k cls
      unfold range_class_sum
      rw [List.map_reverse, List.sum_reverse]
    have hw_rev :
        (((List.range' np (c.endp - np)).reverse).map
          (fun p => weight_of c.sample_weight (c.samples p))).sum
        = range_weight_sum c.samples c.sample_weight np c.endp := by
      unfold range_weight_sum
      rw [List.map_reverse, List.sum_reverse]
    rw [heq]
    apply finalize_coherent c _ np
      (sameStatic_trans (reverse_reset_static c) bst) hc h1 h2
    · intro k cls
      have hb1 := bsl k cls
      rw [ry, rsw, rsam, rno] at hb1
      have hrrleft : (criterion_reverse_reset c).sum_left k cls
          = c.sum_total k cls := rfl
      rw [hrrleft, hsum_rev k cls, hc.total k cls] at hb1
      rw [hb1]
      by_cases hk : k < c.n_outputs
      · rw [if_pos hk, if_pos hk, if_pos hk]
        have := range_class_sum_append c.y c.samples c.sample_weight c.start
          np c.endp k cls h1 h2
        linarith
      · rw [if_neg hk, if_neg hk, if_neg hk]
        ring
    · have hb2 := bwl
      rw [rsw, rsam] at hb2
      have hrrwnl : (criterion_reverse_reset c).weighted_n_left
          = c.weighted_n_node_samples := rfl
      rw [hrrwnl, hw_rev, hc.wnns] at hb2
      rw [hb2]
      have := range_weight_sum_append c.samples c.sample_weight c.start np
        c.endp h1 h2
      linarith

theorem init_coherent (c0 : ClfCriterion) (y : ℕ → ℕ → ℕ) (sw : List ℚ)
    (wns : ℚ) (samples : ℕ → ℕ) (start endp : ℕ)
    (hse : start ≤ endp) (hb : endp < 2 ^ 63) :
    Coherent (classification_criterion_init c0 y sw wns samples start endp) ∧
    (classification_criterion_init c0 y sw wns samples start endp).y = y ∧
    (classification_criterion_init c0 y sw wns samples start
        endp).sample_weight = sw ∧
    (classification_criterion_init c0 y sw wns samples start endp).samples
        = samples ∧
    (classification_criterion_init c0 y sw wns samples start endp).start
        = start ∧
    (classification_criterion_init c0 y sw wns samples start endp).endp
        = endp ∧
    (classification_criterion_init c0 y sw wns samples start endp).n_outputs
        = c0.n_outputs := by
  rw [show classification_criterion_init c0 y sw wns samples start endp
      = criterion_reset ((List.range' start (endp - start)).foldl init_step
          (init_base c0 y sw wns samples start endp)) from rfl]
  obtain ⟨hy, hsw, hsam, hstart, hend, hno, hwns2, hstot, hwnns⟩ :=
    foldl_init_spec (List.range' start (endp - start))
      (init_base c0 y sw wns samples start endp)
  set c1 := (List.range' start (endp - start)).foldl init_step
    (init_base c0 y sw wns samples start endp) with hc1
  have cy : c1.y = y := hy
  have csw : c1.sample_weight = sw := hsw
  have csam : c1.samples = samples := hsam
  have cstart : c1.start = start := hstart
  have cend : c1.endp = endp := hend
  have cno : c1.n_outputs = c0.n_outputs := hno
  have ctot : ∀ k cls, c1.sum_total k cls
      = if k < c0.n_outputs
        then range_class_sum y samples sw start endp k cls else 0 := by
    intro k cls
    have h : c1.sum_total k cls
        = 0 + (if k < c0.n_outputs
            then range_class_sum y samples sw start endp k cls else 0) :=
      hstot k cls
    rw [zero_add] at h
    exact h
  have cwnns : c1.weighted_n_node_samples
      = range_weight_sum samples sw start endp := by
    have h : c1.weighted_n_node_samples
        = 0 + range_weight_sum samples sw start endp := hwnns
    rw [zero_add] at h
    exact h
  refine ⟨⟨?_, ?_, ?_, ?_, ?_, ?_, ?_, ?_, ?_⟩, cy, csw, csam, cstart, cend,
    cno⟩
  · show c1.start ≤ c1.start
    exact Nat.le_refl _
  · show c1.start ≤ c1.endp
    rw [cstart, cend]
    exact hse
  · show c1.endp < 2 ^ 63
    rw [cend]
    exact hb
  · intro k cls
    show c1.sum_total k cls
      = if k < c1.n_outputs
        then range_class_sum c1.y c1.samples c1.sample_weight c1.start
          c1.endp k cls
        else 0
    rw [cy, csam, csw, cstart, cend, cno]
    exact ctot k cls
  · intro k cls
    show (0 : ℚ)
      = if k < c1.n_outputs
        then range_class_sum c1.y c1.samples c1.sample_weight c1.start
          c1.start k cls
        else 0
    have hz : range_class_sum c1.y c1.samples c1.sample_weight c1.start
        c1.start k cls = 0 := by
      unfold range_class_sum
      simp
    rw [hz]
    simp
  · intro k cls
    show c1.sum_total k cls = c1.sum_total k cls - 0
    rw [sub_zero]
  · show c1.weighted_n_node_samples
      = range_weight_sum c1.samples c1.sample_weight c1.start c1.endp
    rw [csam, csw, cstart, cend]
    exact cwnns
  · show (0 : ℚ)
      = range_weight_sum c1.samples c1.sample_weight c1.start c1.start
    unfold range_weight_sum
    simp
  · show c1.weighted_n_node_samples = c1.weighted_n_node_samples - 0
    rw [sub_zero]

/-- Claim C3: from a freshly initialized classification criterion, calling
`update(p2)` and then `update(p1)` leaves `sum_left` and `sum_right` exactly
equal (the embedding computes in `ℚ`, so "up to floating-point rounding"
becomes exact equality) to their values after a single `update(p1)`; in
particular `sum_left` holds the weighted per-class counts of the samples at
positions `[start, p1)`. -/
theorem claim_C3 (c0 : ClfCriterion) (y : ℕ → ℕ → ℕ) (sw : List ℚ)
    (wns : ℚ) (samples : ℕ → ℕ) (start endp p1 p2 : ℕ)
    (h1l : start ≤ p1) (h1u : p1 ≤ endp) (h2l : start ≤ p2) (h2u : p2 ≤ endp)
    (hb : endp < 2 ^ 63) :
    (criterion_update (criterion_update
        (classification_criterion_init c0 y sw wns samples start endp) p2)
        p1).sum_left
      = (criterion_update
          (classification_criterion_init c0 y sw wns samples start endp)
          p1).sum_left ∧
    (criterion_update (criterion_update
        (classification_criterion_init c0 y sw wns samples start endp) p2)
        p1).sum_right
      = (criterion_update
          (classification_criterion_init c0 y sw wns samples start endp)
          p1).sum_right ∧
    (∀ k cls, k < c0.n_outputs →
      (criterion_update (criterion_update
          (classification_criterion_init c0 y sw wns samples start endp) p2)
          p1).sum_left k cls
        = range_class_sum y samples sw start p1 k cls) := by
  have hse : start ≤ endp := le_trans h1l h1u
  obtain ⟨hco, cy, csw, csam, cstart, cend, cno⟩ :=
    init_coherent c0 y sw wns samples start endp hse hb
  set ci := classification_criterion_init c0 y sw wns samples start endp
    with hci
  obtain ⟨hco2, hst2, hpos2⟩ := update_coherent ci hco p2
    (by rw [cstart]; exact h2l) (by rw [cend]; exact h2u)
  set c2 := criterion_update ci p2 with hc2
  obtain ⟨e2y, e2sw, e2sam, e2st, e2en, e2no, _, _, _, e2tot⟩ := hst2
  obtain ⟨hco21, hst21, hpos21⟩ := update_coherent c2 hco2 p1
    (by rw [e2st, cstart]; exact h1l) (by rw [e2en, cend]; exact h1u)
  set c21 := criterion_update c2 p1 with hc21
  obtain ⟨e21y, e21sw, e21sam, e21st, e21en, e21no, _, _, _, e21tot⟩ := hst21
  obtain ⟨hco1, hst1, hpos1⟩ := update_coherent ci hco p1
    (by rw [cstart]; exact h1l) (by rw [cend]; exact h1u)
  set c1 := criterion_update ci p1 with hc1
  obtain ⟨e1y, e1sw, e1sam, e1st, e1en, e1no, _, _, _, e1tot⟩ := hst1
  have hform21 : ∀ k cls, c21.sum_left k cls
      = if k < c0.n_outputs
        then range_class_sum y samples sw start p1 k cls else 0 := by
    intro k cls
    have h := hco21.left k cls
    rw [hpos21, e21y, e21sw, e21sam, e21st, e21no, e2y, e2sw, e2sam, e2st,
      e2no, cy, csw, csam, cstart, cno] at h
    exact h
  have hform1 : ∀ k cls, c1.sum_left k cls
      = if k < c0.n_outputs
        then range_class_sum y samples sw start p1 k cls else 0 := by
    intro k cls
    have h := hco1.left k cls
    rw [hpos1, e1y, e1sw, e1sam, e1st, e1no, cy, csw, csam, cstart, cno] at h
    exact h
  have hleft : c21.sum_left = c1.sum_left := by
    funext k cls
    rw [hform21 k cls, hform1 k cls]
  refine ⟨hleft, ?_, ?_⟩
  · funext k cls
    rw [hco21.right k cls, hco1.right k cls, hleft, e21tot, e2tot, e1tot]
  · intro k cls hk
    rw [hform21 k cls, if_pos hk]

/-- Witness for claim C3 at a concrete input: the Gini scenario with
`update(3)` followed by `update(1)` (a backward move). -/
theorem claim_C3_witness :
    ((0 : ℕ) ≤ 1 ∧ (1 : ℕ) ≤ 4 ∧ (0 : ℕ) ≤ 3 ∧ (3 : ℕ) ≤ 4 ∧
      (4 : ℕ) < 2 ^ 63) ∧
    (criterion_update (criterion_update
        (classification_criterion_init gini_example_base gini_example_y []
          4 id 0 4) 3) 1).sum_left
      = (criterion_update
          (classification_criterion_init gini_example_base gini_example_y []
            4 id 0 4) 1).sum_left := by
  refine ⟨⟨by norm_num, by norm_num, by norm_num, by norm_num,
    by norm_num⟩, ?_⟩
  exact (claim_C3 gini_example_base gini_example_y [] 4 id 0 4 1 3
    (by norm_num) (by norm_num) (by norm_num) (by norm_num)
    (by norm_num)).1
